import Mathlib

/-!
Verification of the `got` repository-walking tool.

We embed the Go source shallowly: path-string algorithms from
`path/filepath` and `strings` are translated to functions on `List Char` /
`String`; the filesystem is a rose tree of named entries; the directory
walker (`cmd/walker.go`) and the git command executor
(`internal/git/operations.go`) become pure functions threading explicit
state (counters, emitted events, the output buffer).
-/

namespace Got

/-! ## Go standard-library path helpers

`filepath.Clean` (unix build, separator `/`) from Go's
`path/filepath/path.go`.  The imperative loop over the byte index `r` is
rendered as recursion on the remaining character list; the explicit fuel
argument mirrors the loop bound (each iteration consumes at least one
byte, so `length + 1` fuel never runs out). -/

/-- The inner back-up loop of `Clean`'s `..` handling:
`for out.w > dotdot && out.index(out.w) != '/' { out.w-- }`,
entered after `out.w--`; returns the final write index `w`. -/
def backupLoop (out : List Char) (dotdot : Nat) : Nat → Nat
  | 0 => 0
  | w + 1 =>
    if dotdot ≤ w ∧ out.getD (w + 1) ' ' ≠ '/' then backupLoop out dotdot w
    else w + 1

/-- Main loop of Go `filepath.Clean`: `rem` is the unread input
(`path[r:]`), `out` the output buffer, `dotdot` the index `..` may not
back up past. -/
def cleanLoop (rooted : Bool) : Nat → List Char → List Char → Nat → List Char
  | 0, _, out, _ => out
  | _ + 1, [], out, _ => out
  | fuel + 1, c :: r, out, dotdot =>
    if c = '/' then
      -- empty path element
      cleanLoop rooted fuel r out dotdot
    else if c = '.' ∧ (r = [] ∨ r.headD ' ' = '/') then
      -- `.` element
      cleanLoop rooted fuel r out dotdot
    else if c = '.' ∧ r.headD ' ' = '.' ∧ (r.tail = [] ∨ r.tail.headD ' ' = '/') then
      -- `..` element: back up if possible
      if dotdot < out.length then
        cleanLoop rooted fuel r.tail
          (out.take (backupLoop out dotdot (out.length - 1))) dotdot
      else if !rooted then
        let out2 := (if out.length > 0 then out ++ ['/'] else out) ++ ['.', '.']
        cleanLoop rooted fuel r.tail out2 out2.length
      else
        cleanLoop rooted fuel r.tail out dotdot
    else
      -- real path element: add slash if needed, copy the element
      let out2 :=
        if (rooted ∧ out.length ≠ 1) ∨ (¬rooted ∧ out.length ≠ 0) then out ++ ['/']
        else out
      cleanLoop rooted fuel ((c :: r).dropWhile (fun x => x ≠ '/'))
        (out2 ++ (c :: r).takeWhile (fun x => x ≠ '/')) dotdot

/-- Go `filepath.Clean` (unix). -/
def filepathClean (path : String) : String :=
  if path = "" then "."
  else
    let cs := path.data
    let rooted := cs.headD ' ' = '/'
    let res :=
      if rooted then cleanLoop true cs.length cs.tail ['/'] 1
      else cleanLoop false (cs.length + 1) cs [] 0
    if res = [] then "." else String.mk res

/-- Go `filepath.Base` (unix): strip trailing slashes, then keep
everything after the last slash; `""` gives `"."`, an all-slash path
gives `"/"`. -/
def filepathBase (path : String) : String :=
  if path = "" then "."
  else
    let cs := (path.data.reverse.dropWhile (fun c => c = '/')).reverse
    if cs = [] then "/"
    else String.mk ((cs.reverse.takeWhile (fun c => c ≠ '/')).reverse)

/-- Go `strings.Split(s, "/")`: split at every separator, keeping empty
pieces (`n` separators give `n+1` pieces). -/
def splitSlash : List Char → List (List Char)
  | [] => [[]]
  | c :: r =>
    let rest := splitSlash r
    if c = '/' then [] :: rest
    else (c :: rest.headD []) :: rest.tail

/-! ## Path Matcher (`cmd/validation.go`) -/

/-- The path segments `matchesSkipPattern` inspects:
`strings.Split(filepath.Clean(path), "/")`. -/
def pathSegments (path : String) : List String :=
  (splitSlash (filepathClean path).data).map (fun l => String.mk l)

/-- The `matchesSkipPattern` from `cmd/validation.go`: exact path-segment
matching of a skip pattern against a path. -/
def matchesSkipPattern (path pattern : String) : Bool :=
  if pattern = "" then false
  else
    let cleanPath := filepathClean path
    if (pathSegments path).contains pattern then true
    else if cleanPath = pattern || filepathBase cleanPath = pattern then true
    else false

/-- The `shouldSkipPath` from `cmd/validation.go`, with the configured skip
list passed explicitly (the Go function reads it via `getSkipList()`). -/
def shouldSkipPath (skipList : List String) (path : String) : Bool :=
  skipList.any (fun skip => matchesSkipPattern path skip)

/-! ## Skip-list configuration (`cmd/root.go`, `getSkipList`)

Go `strings.TrimSpace` and the merge of configured and default skip
entries.  Go iterates a map, so the output order is unspecified; we fix
the (irrelevant) order by deduplicating the merged list. -/

/-- Go `unicode.IsSpace`: the White_Space code points. -/
def goIsSpace (c : Char) : Bool :=
  c = '\t' ∨ c = '\n' ∨ c = Char.ofNat 11 ∨ c = Char.ofNat 12 ∨ c = '\r' ∨ c = ' ' ∨
  c = Char.ofNat 0x85 ∨ c = Char.ofNat 0xA0 ∨ c = Char.ofNat 0x1680 ∨
  (0x2000 ≤ c.toNat ∧ c.toNat ≤ 0x200A) ∨
  c = Char.ofNat 0x2028 ∨ c = Char.ofNat 0x2029 ∨ c = Char.ofNat 0x202F ∨
  c = Char.ofNat 0x205F ∨ c = Char.ofNat 0x3000

/-- Go `strings.TrimSpace`: drop leading and trailing white space. -/
def stringsTrimSpace (s : String) : String :=
  String.mk (((s.data.dropWhile goIsSpace).reverse.dropWhile goIsSpace).reverse)

/-- The built-in default skip entries of `getSkipList`. -/
def defaultSkips : List String := ["node_modules", "vendor", ".git"]

/-- The `getSkipList` from `cmd/root.go`: merge the defaults (when enabled)
with the configured entries into a set, then trim each entry and drop
the ones that trim to empty. -/
def getSkipList (skipList : List String) (useDefaults : Bool) : List String :=
  (((if useDefaults then defaultSkips else []) ++ skipList).dedup).filterMap
    (fun k =>
      let t := stringsTrimSpace k
      if t = "" then none else some t)

/-! ## The filesystem model

A rose tree of named entries.  A directory is a git repository root
exactly when an entry named `.git` (directory or file — `os.Stat`
succeeds for either) sits directly under it. -/

inductive FSNode where
  | dir (name : String) (broken : Bool) (children : List FSNode)
  | file (name : String)

/-- Entry name, as `os.FileInfo.Name()` reports it. -/
def FSNode.name : FSNode → String
  | .dir n _ _ => n
  | .file n => n

/-- The `os.Stat(filepath.Join(path, ".git"))` succeeds iff the children
list has an entry named `.git`. -/
def hasGitMarker (ch : List FSNode) : Bool :=
  ch.any (fun c => c.name = ".git")

/-- A well-formed entry name: nonempty, no separator, not a dot element.
Real directory entries always satisfy this. -/
def goodName (n : String) : Bool :=
  n ≠ "" ∧ n ≠ "." ∧ n ≠ ".." ∧ ¬ n.data.contains '/'

/-- Resolve a segment path against a tree node (the kernel's lookup that
`os.Stat` performs, one child per segment). -/
def resolveNode (t : FSNode) : List String → Option FSNode
  | [] => some t
  | s :: ss =>
    match t with
    | .file _ => none
    | .dir _ _ ch =>
      match ch.find? (fun c => c.name = s) with
      | some c => resolveNode c ss
      | none => none

/-! ## Command Executor (`internal/git/operations.go`) -/

/-- Go `filepath.Join` of two elements: drop empty elements, join with
the separator, `Clean` the result. -/
def filepathJoin (a b : String) : String :=
  if a = "" ∧ b = "" then ""
  else if a = "" then filepathClean b
  else if b = "" then filepathClean a
  else filepathClean (a ++ "/" ++ b)

/-- The segment path `os.Stat` resolves for a path string: the nonempty
segments of the cleaned path, looked up from the filesystem root. -/
def absSegs (path : String) : List String :=
  ((splitSlash (filepathClean path).data).map (fun l => String.mk l)).filter
    (fun s => s ≠ "")

/-- The `os.Stat(p)` succeeds on filesystem `fs`. -/
def statOk (fs : FSNode) (p : String) : Bool :=
  (resolveNode fs (absSegs p)).isSome

/-- The `IsRepository` from `internal/git/operations.go`:
`os.Stat(filepath.Join(path, DirName))` returns no error. -/
def IsRepository (fs : FSNode) (path : String) : Bool :=
  statOk fs (filepathJoin path ".git")

/-- Errors a git operation can hand back to the walker: the walker only
distinguishes `context.Canceled` from everything else. -/
inductive GErr where
  | canceled
  | other (msg : String)
deriving DecidableEq

/-- Categorized events flowing through the logging callbacks, plus the
walker's direct print for a file-walk error (a separate channel from the
`LogError` callback). -/
inductive Event where
  | skipped (path : String)
  | success (path : String)
  | errorEv (path : String) (msg : String)
  | walkErr (path : String)
deriving DecidableEq

/-- A `git.Output` buffered for deferred display. -/
structure Output where
  path : String
  output : String
  error : Option String
deriving DecidableEq

/-- What one git-operation invocation did: the error returned to the
caller, the events it emitted, the outputs it buffered, and (ghost) the
paths it ran the external command on. -/
structure OpResult where
  err : Option GErr
  events : List Event
  buffered : List Output
  calls : List String
deriving DecidableEq

/-- The `runCommand` from `internal/git/operations.go`.  The runner returns
the combined output and an optional error; `statusOp` says whether the
operation is `status` (output captured), `progressMode` whether a
tree-wide progress bar is active, `ctxCanceled` the context state at the
post-run check.  Failures go to the `LogError` callback and the function
returns nil; buffered outputs always carry a nil error. -/
def runCommand (statusOp progressMode ctxCanceled : Bool)
    (runner : String → String × Option String) (path : String) : OpResult :=
  let r := runner path
  if ctxCanceled then ⟨some .canceled, [], [], [path]⟩
  else
    match r.2 with
    | some e => ⟨none, [.errorEv path e], [], [path]⟩
    | none =>
      let buf : List Output :=
        if statusOp ∧ r.1 ≠ "" ∧ progressMode then [⟨path, r.1, none⟩] else []
      ⟨none, [.success path], buf, [path]⟩

/-- The `ExecuteCommand` (recursive entry point): silently skip non-git
directories — no runner call, no events, no error. -/
def ExecuteCommand (isRepo statusOp progressMode ctxCanceled : Bool)
    (runner : String → String × Option String) (path : String) : OpResult :=
  if !isRepo then ⟨none, [], [], []⟩
  else runCommand statusOp progressMode ctxCanceled runner path

/-- The `runCommand` with the filesystem threaded: the external git process
may mutate the filesystem (pull/fetch write into the repository), so a
stateful runner returns its output, its error, and the filesystem it
leaves behind. -/
def runCommandSt (statusOp progressMode ctxCanceled : Bool)
    (runner : FSNode → String → (String × Option String) × FSNode)
    (fs : FSNode) (path : String) : OpResult × FSNode :=
  let r := runner fs path
  (runCommand statusOp progressMode ctxCanceled (fun _ => r.1) path, r.2)

/-- The `ExecuteCommandSingle` (single-target entry point) with the
filesystem threaded: a non-repository target errors out before the
runner can run (so the filesystem is untouched); otherwise the runner
executes and may mutate the filesystem. -/
def ExecuteCommandSingle (statusOp progressMode ctxCanceled : Bool)
    (runner : FSNode → String → (String × Option String) × FSNode)
    (fs : FSNode) (path : String) : Option GErr × FSNode :=
  if !(IsRepository fs path) then
    (some (.other ("[" ++ path ++ "] is not a git repository")), fs)
  else
    let rs := runCommandSt statusOp progressMode ctxCanceled runner fs path
    (rs.1.err, rs.2)

/-! ## Tree Walker (`cmd/walker.go`) -/

/-- Pass-2 accumulator: the real counters `dirCount`, `gitRepoCount`,
`skipCount` plus ghost instrumentation (visit step counter for the
cancellation model, visited/invoked positions, emitted events, the
output buffer, and the derived classes of visited directories). -/
structure WalkAcc where
  step : Nat
  dirCount : Nat
  gitRepoCount : Nat
  skipCount : Nat
  nonRepoOps : Nat
  markerVisits : Nat
  progressRepos : Nat
  invokedPos : List (List String)
  invokedRepos : List String
  visitedPos : List (List String)
  events : List Event
  buffer : List Output
deriving DecidableEq

/-- The empty accumulator walkDirectories starts from. -/
def WalkAcc.init : WalkAcc := ⟨0, 0, 0, 0, 0, 0, 0, [], [], [], [], []⟩

/-- One callback invocation: the visit step counter advances. -/
def WalkAcc.bumpStep (a : WalkAcc) : WalkAcc := {a with step := a.step + 1}

/-- The walker printed a file-walk error for `path` and continued. -/
def WalkAcc.walkError (a : WalkAcc) (path : String) : WalkAcc :=
  {a with events := a.events ++ [.walkErr path]}

/-- The `dirCount++`: the directory at `pos` is scanned. -/
def WalkAcc.visitDir (a : WalkAcc) (pos : List String) : WalkAcc :=
  {a with dirCount := a.dirCount + 1, visitedPos := a.visitedPos ++ [pos]}

/-- The visited directory was the `.git` metadata directory itself. -/
def WalkAcc.markerVisit (a : WalkAcc) : WalkAcc :=
  {a with markerVisits := a.markerVisits + 1}

/-- The `progress.Update(path, isGit)`: the tracker's repository count. -/
def WalkAcc.progressUpdate (a : WalkAcc) (isGit : Bool) : WalkAcc :=
  if isGit then {a with progressRepos := a.progressRepos + 1} else a

/-- The visited directory matched the skip list. -/
def WalkAcc.skipVisit (a : WalkAcc) (path : String) : WalkAcc :=
  {a with skipCount := a.skipCount + 1, events := a.events ++ [.skipped path]}

/-- The git operation ran on a repository root. -/
def WalkAcc.repoVisit (a : WalkAcc) (path : String) (pos : List String)
    (r : OpResult) : WalkAcc :=
  {a with gitRepoCount := a.gitRepoCount + 1,
          invokedPos := a.invokedPos ++ [pos],
          invokedRepos := a.invokedRepos ++ [path],
          events := a.events ++ r.events,
          buffer := a.buffer ++ r.buffered}

/-- The git operation ran on a non-repository directory. -/
def WalkAcc.nonRepoVisit (a : WalkAcc) (_path : String) (pos : List String)
    (r : OpResult) : WalkAcc :=
  {a with nonRepoOps := a.nonRepoOps + 1,
          invokedPos := a.invokedPos ++ [pos],
          events := a.events ++ r.events,
          buffer := a.buffer ++ r.buffered}

mutual
/-- Pass 1 (count): same prune rules as pass 2; returns `totalDirs`. -/
def walk1Node (skipP : String → Bool) (path : String) : FSNode → Nat
  | .file _ => 0
  | .dir _ broken ch =>
    if broken then 0
    else if filepathBase path = ".git" then 0
    else if skipP path then 0
    else if hasGitMarker ch then 1
    else 1 + walk1Children skipP path ch
def walk1Children (skipP : String → Bool) (path : String) : List FSNode → Nat
  | [] => 0
  | c :: cs =>
    walk1Node skipP (path ++ "/" ++ c.name) c + walk1Children skipP path cs
end

/-!
Pass 2 (execute): the `filepath.Walk` callback of `walkDirectories`.
`cancel` is the context's cancellation status as a function of the visit
step (the callback checks it before any per-node work); `op` is the git
operation, receiving the path and the repository status the shared
filesystem reports for it; `pos` is the ghost tree position.  Returns
the updated accumulator and the walk's terminal error.
-/
mutual
/-- The pass-2 visit of one node. -/
def walk2Node (cancel : Nat → Bool) (skipP : String → Bool)
    (op : String → Bool → OpResult) (path : String) (pos : List String) :
    FSNode → WalkAcc → WalkAcc × Option GErr
  | .file _, acc =>
    if cancel acc.step then (acc.bumpStep, some .canceled)
    else (acc.bumpStep, none)
  | .dir _ broken ch, acc =>
    if cancel acc.step then (acc.bumpStep, some .canceled)
    else if broken then (acc.bumpStep.walkError path, none)
    else
      let acc1 := acc.bumpStep.visitDir pos
      if filepathBase path = ".git" then (acc1.markerVisit, none)
      else
        let acc2 := acc1.progressUpdate (hasGitMarker ch)
        if skipP path then (acc2.skipVisit path, none)
        else if hasGitMarker ch then
          let r := op path true
          if r.err = some .canceled then (acc2.repoVisit path pos r, some .canceled)
          else (acc2.repoVisit path pos r, none)
        else
          let r := op path false
          if r.err = some .canceled then (acc2.nonRepoVisit path pos r, some .canceled)
          else walk2Children cancel skipP op path pos ch (acc2.nonRepoVisit path pos r)
def walk2Children (cancel : Nat → Bool) (skipP : String → Bool)
    (op : String → Bool → OpResult) (path : String) (pos : List String) :
    List FSNode → WalkAcc → WalkAcc × Option GErr
  | [], acc => (acc, none)
  | c :: cs, acc =>
    match walk2Node cancel skipP op (path ++ "/" ++ c.name) (pos ++ [c.name]) c acc with
    | (acc', some e) => (acc', some e)
    | (acc', none) => walk2Children cancel skipP op path pos cs acc'
end

/-- Flushing the buffered outputs after the walk: an output with an
error goes to `logError`, otherwise the captured output is printed and
`logSuccess` reports the path. -/
def flushBuffer (buffer : List Output) : List Event :=
  buffer.map (fun o =>
    match o.error with
    | some e => .errorEv o.path e
    | none => .success o.path)

/-- Everything `walkDirectories` produces. -/
structure WalkResult where
  totalDirs : Nat
  scanned : Nat
  repos : Nat
  skipped : Nat
  nonRepoOps : Nat
  markerVisits : Nat
  progressRepos : Nat
  steps : Nat
  invokedPos : List (List String)
  invokedRepos : List String
  visitedPos : List (List String)
  events : List Event
  buffer : List Output
  ret : Option GErr
deriving DecidableEq

/-- The `walkDirectories` from `cmd/walker.go`: pass 1 counts, pass 2
executes, then the buffer is flushed; the return value is pass 2's
terminal error. -/
def walkDirectories (cancel : Nat → Bool) (skipP : String → Bool)
    (op : String → Bool → OpResult) (rootPath : String) (root : FSNode) :
    WalkResult :=
  let totalDirs := walk1Node skipP rootPath root
  let (acc, ret) := walk2Node cancel skipP op rootPath [] root WalkAcc.init
  { totalDirs := totalDirs
    scanned := acc.dirCount
    repos := acc.gitRepoCount
    skipped := acc.skipCount
    nonRepoOps := acc.nonRepoOps
    markerVisits := acc.markerVisits
    progressRepos := acc.progressRepos
    steps := acc.step
    invokedPos := acc.invokedPos
    invokedRepos := acc.invokedRepos
    visitedPos := acc.visitedPos
    events := acc.events ++ flushBuffer acc.buffer
    buffer := acc.buffer
    ret := ret }

/-- The visited directories fall into four disjoint classes; their
total. -/
def WalkAcc.classSum (a : WalkAcc) : Nat :=
  a.gitRepoCount + a.skipCount + a.nonRepoOps + a.markerVisits

mutual
/-- Repository positions in the subtree rooted at `pos`. -/
def reposIn (pos : List String) : FSNode → List (List String)
  | .file _ => []
  | .dir _ _ ch => (if hasGitMarker ch then [pos] else []) ++ reposInCh pos ch
def reposInCh (pos : List String) : List FSNode → List (List String)
  | [] => []
  | c :: cs => reposIn (pos ++ [c.name]) c ++ reposInCh pos cs
end

/-- The error-callback events among a run's events. -/
def errCbEvents (l : List Event) : List Event :=
  l.filter (fun e => match e with | .errorEv _ _ => true | _ => false)

/-- The git operation the walker hands to `filepath.Walk` in recursive
mode: `executeGitCommand`, i.e. `git.ExecuteCommand` with the walker's
config.  The `Bool` argument is the repository status the shared
filesystem reports for the path (the walker and the executor consult
the same filesystem). -/
def gitOp (statusOp progressMode : Bool) (runner : String → String × Option String)
    (path : String) (isRepo : Bool) : OpResult :=
  ExecuteCommand isRepo statusOp progressMode false runner path

/-- The error event `runCommand` emits for a path, if the runner fails
there. -/
def failEvent (runner : String → String × Option String) (p : String) :
    Option Event :=
  match (runner p).2 with
  | some e => some (.errorEv p e)
  | none => none

/-! ## Spec-side definitions and well-formedness -/

/-- The spec's matching relation (section 4.1 / section 8, repeated by
claim C1): the pattern equals a full segment of the normalized path, or
the entire normalized path, or its basename. -/
def SpecSkipMatch (path pattern : String) : Prop :=
  pattern ∈ pathSegments path ∨ pattern = filepathClean path ∨
    pattern = filepathBase (filepathClean path)

/-- The spec's reading of the repository marker in claim C8: a marker
subdirectory named `.git` directly under the node. -/
def hasGitDirMarker (ch : List FSNode) : Bool :=
  ch.any (fun c => match c with | .dir n _ _ => n = ".git" | .file _ => false)

/-- Position `p` lies strictly inside the subtree rooted at position
`q`. -/
def StrictlyInside (q p : List String) : Prop :=
  ∃ t, t ≠ [] ∧ p = q ++ t

/-- Sibling name lists must be duplicate-free (as on a real filesystem). -/
def noDupNames : List String → Bool
  | [] => true
  | x :: xs => !(xs.contains x) && noDupNames xs

mutual
/-- Full tree well-formedness: every name is a well-formed entry name
and sibling names are distinct — both guaranteed on a real filesystem. -/
def TreeWF : FSNode → Bool
  | .file n => goodName n
  | .dir n _ ch => goodName n && noDupNames (ch.map FSNode.name) && TreeWFCh ch
/-- The `TreeWF` over a children list. -/
def TreeWFCh : List FSNode → Bool
  | [] => true
  | c :: cs => TreeWF c && TreeWFCh cs
end

/-- Join segments with the separator (`strings.Join(segs, "/")`). -/
def slashJoin : List String → String
  | [] => ""
  | [s] => s
  | s :: ss => s ++ "/" ++ slashJoin ss

/-- Child lookup: one resolution step of `os.Stat`. -/
def lookupChild (t : FSNode) (y : String) : Option FSNode :=
  match t with
  | .dir _ _ ch => ch.find? (fun c => c.name = y)
  | .file _ => none

/-- A node carries the repository marker: it is a directory with an
entry named `.git` directly under it. -/
def nodeHasMarker : FSNode → Bool
  | .dir _ _ ch => hasGitMarker ch
  | .file _ => false

/-- The characters `filepath.Clean`'s main loop appends for a run of
plain path elements: a separator before each element except when the
output buffer still holds only the root slash. -/
def cleanAppend : Bool → List String → List Char
  | _, [] => []
  | bare, s :: ss => (if bare then [] else ['/']) ++ s.data ++ cleanAppend false ss

-- Sanity checks mirroring the Go unit tests.
example : filepathClean "/home/user//project/./vendor/../vendor/lib"
    = "/home/user/project/vendor/lib" := by decide
example : filepathClean "" = "." := by decide
example : filepathClean "a/.." = "." := by decide
example : filepathClean "/.." = "/" := by decide
example : filepathClean "../a" = "../a" := by decide
example : filepathClean "a/b/.." = "a" := by decide
example : matchesSkipPattern "/project/vendor/package" "vendor" = true := by decide
example : matchesSkipPattern "/project/vendor-tools/package" "vendor" = false := by decide
example : matchesSkipPattern "/project/tools/vendor" "vendor" = true := by decide
example : matchesSkipPattern "/any/path" "" = false := by decide
example : matchesSkipPattern "/vendor" "/vendor" = true := by decide
example : matchesSkipPattern "/home/user//project/./vendor/../vendor/lib" "vendor" = true := by decide
example : matchesSkipPattern "/project/Vendor/package" "vendor" = false := by decide
example : matchesSkipPattern "/project/.git/hooks" ".git" = true := by decide

/-! ## Path Matcher theorems (claims C1, C9) -/

/-- A nonempty pattern matches exactly under the spec's three-way
segment rule. -/
lemma matchesSkipPattern_iff (path pattern : String) (h : pattern ≠ "") :
    matchesSkipPattern path pattern = true ↔ SpecSkipMatch path pattern := by
  unfold matchesSkipPattern SpecSkipMatch
  simp only [if_neg h]
  constructor
  · intro hm
    by_cases hseg : (pathSegments path).contains pattern
    · exact Or.inl (by simpa using hseg)
    · rw [if_neg hseg] at hm
      split at hm
      · rename_i hor
        rcases Bool.or_eq_true _ _ |>.mp (by exact_mod_cast hor) with h1 | h2
        · exact Or.inr (Or.inl (by simpa [eq_comm] using h1))
        · exact Or.inr (Or.inr (by simpa [eq_comm] using h2))
      · exact absurd hm (by simp)
  · intro hs
    rcases hs with h1 | h2 | h3
    · rw [if_pos (by simpa using h1)]
    · by_cases hseg : (pathSegments path).contains pattern
      · rw [if_pos hseg]
      · rw [if_neg hseg, if_pos (by simp [h2.symm])]
    · by_cases hseg : (pathSegments path).contains pattern
      · rw [if_pos hseg]
      · rw [if_neg hseg, if_pos (by simp [h3.symm])]

/-- Claim C1: for every path and every skip list of nonempty patterns,
`shouldSkipPath` returns true iff some pattern equals a full segment of
the cleaned path, the entire cleaned path, or its basename; in
particular a pattern that is merely a substring of a longer segment
(and hence satisfies none of the three equalities) never matches, and
matching is exact string equality, hence case-sensitive. -/
theorem C1_shouldSkipPath_segment_semantics (path : String)
    (skipList : List String) (h : ∀ p ∈ skipList, p ≠ "") :
    shouldSkipPath skipList path = true ↔
      ∃ p ∈ skipList, SpecSkipMatch path p := by
  unfold shouldSkipPath
  rw [List.any_eq_true]
  constructor
  · rintro ⟨p, hp, hm⟩
    exact ⟨p, hp, (matchesSkipPattern_iff path p (h p hp)).mp hm⟩
  · rintro ⟨p, hp, hm⟩
    exact ⟨p, hp, (matchesSkipPattern_iff path p (h p hp)).mpr hm⟩

/-- Witness for C1: with skip list `["vendor"]`, the substring path
`/project/vendor-tools/pkg` is not skipped while `/project/vendor/pkg`
is. -/
theorem C1_witness :
    (shouldSkipPath ["vendor"] "/project/vendor-tools/pkg" = true ↔
      ∃ p ∈ ["vendor"], SpecSkipMatch "/project/vendor-tools/pkg" p) ∧
    shouldSkipPath ["vendor"] "/project/vendor-tools/pkg" = false ∧
    shouldSkipPath ["vendor"] "/project/vendor/pkg" = true := by
  refine ⟨C1_shouldSkipPath_segment_semantics _ _ ?_, by decide, by decide⟩
  intro p hp
  simp only [List.mem_singleton] at hp
  subst hp
  decide

/-- Membership in the merged, trimmed, filtered skip list. -/
lemma mem_getSkipList {s : String} {cfg : List String} {ud : Bool} :
    s ∈ getSkipList cfg ud ↔
      s ≠ "" ∧ ∃ k ∈ (if ud then defaultSkips else []) ++ cfg,
        stringsTrimSpace k = s := by
  unfold getSkipList
  rw [List.mem_filterMap]
  constructor
  · rintro ⟨k, hk, hf⟩
    simp only at hf
    split at hf
    · exact absurd hf (by simp)
    · rename_i hne
      obtain rfl : stringsTrimSpace k = s := by
        simpa using hf
      exact ⟨hne, k, List.mem_dedup.mp hk, rfl⟩
  · rintro ⟨hs, k, hk, rfl⟩
    refine ⟨k, List.mem_dedup.mpr hk, ?_⟩
    simp only
    rw [if_neg hs]

/-- Claim C9: the empty pattern never matches, and empty or
whitespace-only configured entries are filtered out of the skip list, so
they never cause `shouldSkipPath` to skip anything: prepending a
whitespace-only entry to the configured list leaves the skip decision of
every path unchanged. -/
theorem C9_empty_patterns_never_match :
    (∀ path, matchesSkipPattern path "" = false) ∧
    (∀ cfg ud s, s ∈ getSkipList cfg ud → s ≠ "") ∧
    (∀ cfg ud path w, stringsTrimSpace w = "" →
      shouldSkipPath (getSkipList (w :: cfg) ud) path =
        shouldSkipPath (getSkipList cfg ud) path) := by
  refine ⟨fun path => rfl, fun cfg ud s hs => (mem_getSkipList.mp hs).1, ?_⟩
  intro cfg ud path w hw
  have hmem : ∀ s, s ∈ getSkipList (w :: cfg) ud ↔ s ∈ getSkipList cfg ud := by
    intro s
    rw [mem_getSkipList, mem_getSkipList]
    constructor
    · rintro ⟨hs, k, hk, rfl⟩
      rcases List.mem_append.mp hk with hk | hk
      · exact ⟨hs, k, List.mem_append.mpr (Or.inl hk), rfl⟩
      · rcases List.mem_cons.mp hk with rfl | hk
        · exact absurd hw hs
        · exact ⟨hs, k, List.mem_append.mpr (Or.inr hk), rfl⟩
    · rintro ⟨hs, k, hk, rfl⟩
      rcases List.mem_append.mp hk with hk | hk
      · exact ⟨hs, k, List.mem_append.mpr (Or.inl hk), rfl⟩
      · exact ⟨hs, k, List.mem_append.mpr (Or.inr (List.mem_cons_of_mem _ hk)), rfl⟩
  rw [Bool.eq_iff_iff]
  unfold shouldSkipPath
  rw [List.any_eq_true, List.any_eq_true]
  constructor
  · rintro ⟨p, hp, hm⟩
    exact ⟨p, (hmem p).mp hp, hm⟩
  · rintro ⟨p, hp, hm⟩
    exact ⟨p, (hmem p).mpr hp, hm⟩

/-- A well-formed name is nonempty and separator-free. -/
lemma goodName_spec {n : String} (h : goodName n = true) :
    n ≠ "" ∧ n.data.contains '/' = false := by
  simp only [goodName, Bool.decide_and, Bool.and_eq_true, decide_eq_true_eq] at h
  refine ⟨h.1, ?_⟩
  have := h.2.2.2
  simp only [decide_eq_true_eq] at this
  simpa using this

/-- The root name of a well-formed tree is well formed. -/
lemma TreeWF_name {c : FSNode} (h : TreeWF c = true) : goodName c.name = true := by
  cases c with
  | file n => simpa [TreeWF, FSNode.name] using h
  | dir n b ch =>
    simp only [TreeWF, Bool.and_eq_true] at h
    simpa [FSNode.name] using h.1.1

/-- The children of a well-formed directory are well formed. -/
lemma TreeWF_children {n : String} {b : Bool} {ch : List FSNode}
    (h : TreeWF (.dir n b ch) = true) : TreeWFCh ch = true := by
  simp only [TreeWF, Bool.and_eq_true] at h
  exact h.2

/-- Members of a well-formed children list are well formed. -/
lemma TreeWFCh_mem {cs : List FSNode} (h : TreeWFCh cs = true) {c : FSNode}
    (hc : c ∈ cs) : TreeWF c = true := by
  induction cs with
  | nil => cases hc
  | cons d ds ih =>
    simp only [TreeWFCh, Bool.and_eq_true] at h
    rcases List.mem_cons.mp hc with rfl | hc
    · exact h.1
    · exact ih h.2 hc

/-- Without the marker among the children, no child is named `.git`. -/
lemma hasGitMarker_false {ch : List FSNode} (h : hasGitMarker ch = false) :
    ∀ c ∈ ch, c.name ≠ ".git" := by
  intro c hc
  simp only [hasGitMarker, List.any_eq_false] at h
  simpa using h c hc

/-- Witness for C9: a whitespace-only entry changes nothing concretely. -/
theorem C9_witness :
    stringsTrimSpace " " = "" ∧
    shouldSkipPath (getSkipList [" "] false) "/a/b" =
      shouldSkipPath (getSkipList [] false) "/a/b" :=
  ⟨by decide, C9_empty_patterns_never_match.2.2 [] false "/a/b" " " (by decide)⟩

/-! ## Command Executor theorems (claims C6, C7) -/

/-- Claim C6: on a path that is not a git repository the single-target
entry point fails with an error whose text contains
`is not a git repository`, the filesystem is left untouched, and a
second run against the unchanged directory returns the identical
error. -/
theorem C6_single_not_repository_idempotent (statusOp progressMode ctxCanceled : Bool)
    (runner : FSNode → String → (String × Option String) × FSNode)
    (fs : FSNode) (path : String) (h : IsRepository fs path = false) :
    ExecuteCommandSingle statusOp progressMode ctxCanceled runner fs path =
      (some (.other ("[" ++ path ++ "] is not a git repository")), fs) ∧
    (∃ a b, "[" ++ path ++ "] is not a git repository" =
      a ++ "is not a git repository" ++ b) ∧
    ExecuteCommandSingle statusOp progressMode ctxCanceled runner
        (ExecuteCommandSingle statusOp progressMode ctxCanceled runner fs path).2 path =
      ExecuteCommandSingle statusOp progressMode ctxCanceled runner fs path := by
  have hrun : ExecuteCommandSingle statusOp progressMode ctxCanceled runner fs path =
      (some (.other ("[" ++ path ++ "] is not a git repository")), fs) := by
    unfold ExecuteCommandSingle
    rw [h]
    simp
  refine ⟨hrun, ⟨"[" ++ path ++ "] ", "", ?_⟩, ?_⟩
  · have : ("] is not a git repository" : String) = "] " ++ "is not a git repository" := by
      decide
    simp [this, String.append_assoc]
  · rw [hrun]
    exact hrun

/-- Witness for C6 at a concrete non-repository filesystem. -/
theorem C6_witness :
    IsRepository (.dir "r" false [.file "x"]) "/r" = false ∧
    ExecuteCommandSingle false false false (fun fs _ => (("", none), fs))
        (.dir "r" false [.file "x"]) "/r" =
      (some (.other "[/r] is not a git repository"), .dir "r" false [.file "x"]) := by
  refine ⟨by decide, ?_⟩
  have h := C6_single_not_repository_idempotent false false false
    (fun fs _ => (("", none), fs)) (.dir "r" false [.file "x"]) "/r" (by decide)
  exact h.1

/-- Claim C7: in recursive mode, a path that is not a git repository is
skipped silently: `ExecuteCommand` returns nil without calling the git
runner, emitting any event, or buffering any output. -/
theorem C7_recursive_silent_skip (statusOp progressMode ctxCanceled : Bool)
    (runner : String → String × Option String) (fs : FSNode) (path : String)
    (h : IsRepository fs path = false) :
    ExecuteCommand (IsRepository fs path) statusOp progressMode ctxCanceled
      runner path = ⟨none, [], [], []⟩ := by
  rw [h]
  rfl

/-- Witness for C7 at a concrete non-repository filesystem. -/
theorem C7_witness :
    ExecuteCommand (IsRepository (.dir "r" false [.file "x"]) "/r") true true false
      (fun _ => ("boom", some "exit status 1")) "/r" = ⟨none, [], [], []⟩ :=
  C7_recursive_silent_skip true true false _ (.dir "r" false [.file "x"]) "/r"
    (by decide)

/-! ## String lemmas about joined paths -/

/-- The `takeWhile` swallows a satisfying block up to the first failing
element. -/
lemma takeWhile_all_append {α : Type} (P : α → Bool) (A : List α) (x : α)
    (B : List α) (hA : ∀ a ∈ A, P a = true) (hx : P x = false) :
    (A ++ x :: B).takeWhile P = A := by
  induction A with
  | nil => simp [List.takeWhile_cons, hx]
  | cons a A ih =>
    have ha : P a = true := hA a (by simp)
    simp only [List.cons_append, List.takeWhile_cons, ha, if_pos]
    rw [ih (fun b hb => hA b (by simp [hb]))]

/-- A string is empty iff its character list is. -/
lemma string_eq_empty_iff (s : String) : s = "" ↔ s.data = [] := by
  constructor
  · rintro rfl; rfl
  · intro h
    cases s with
    | mk l => simpa using congrArg String.mk h

/-- Joining a parent path with a well-formed entry name puts the name
after the last separator, so `filepath.Base` recovers exactly the
name. -/
lemma filepathBase_append (p n : String) (h1 : n ≠ "")
    (h2 : n.data.contains '/' = false) :
    filepathBase (p ++ "/" ++ n) = n := by
  have hdata : (p ++ "/" ++ n).data = p.data ++ '/' :: n.data := by
    simp [String.data_append]
  have hnd : n.data ≠ [] := fun h => h1 ((string_eq_empty_iff n).mpr h)
  have hslash : ∀ c ∈ n.data, (c ≠ '/' : Bool) = true := by
    intro c hc
    simp only [ne_eq, decide_eq_true_eq]
    intro rfl_c
    subst rfl_c
    have h4 : n.data.contains '/' = true := List.elem_iff.mpr hc
    rw [h2] at h4
    simp at h4
  have hne : (p ++ "/" ++ n) ≠ "" := by
    intro h
    have := (string_eq_empty_iff _).mp h
    rw [hdata] at this
    simp at this
  unfold filepathBase
  rw [if_neg hne, hdata]
  obtain ⟨c, t, hct⟩ : ∃ c t, n.data.reverse = c :: t := by
    rcases hrev : n.data.reverse with _ | ⟨c, t⟩
    · exact absurd (by simpa using congrArg List.reverse hrev) hnd
    · exact ⟨c, t, rfl⟩
  have hcmem : c ∈ n.data := by
    have : c ∈ n.data.reverse := by rw [hct]; simp
    simpa using this
  have hcn : (c = '/') = False := by
    simp only [eq_iff_iff, iff_false]
    intro rfl_c
    have := hslash c hcmem
    simp [rfl_c] at this
  have hrev : (p.data ++ '/' :: n.data).reverse = c :: (t ++ '/' :: p.data.reverse) := by
    rw [List.reverse_append, List.reverse_cons, hct]
    simp
  rw [hrev]
  have hdrop : (c :: (t ++ '/' :: p.data.reverse)).dropWhile (fun x => x = '/') =
      c :: (t ++ '/' :: p.data.reverse) := by
    rw [List.dropWhile_cons]
    simp [hcn]
  rw [hdrop]
  have hcsne : (c :: (t ++ '/' :: p.data.reverse)).reverse ≠ [] := by simp
  rw [if_neg hcsne]
  have hback : (c :: (t ++ '/' :: p.data.reverse)).reverse.reverse =
      c :: (t ++ '/' :: p.data.reverse) := by simp
  rw [hback]
  have htake : (c :: (t ++ '/' :: p.data.reverse)).takeWhile (fun x => x ≠ '/') =
      c :: t := by
    have : c :: (t ++ '/' :: p.data.reverse) = (c :: t) ++ '/' :: p.data.reverse := by
      simp
    rw [this]
    apply takeWhile_all_append
    · intro a ha
      have : a ∈ n.data.reverse := by rw [hct]; exact ha
      exact hslash a (by simpa using this)
    · simp
  rw [htake]
  have : (c :: t).reverse = n.data := by
    rw [← hct]; simp
  rw [this]

/-! ## Tree Walker counter invariants (claim C2) -/

mutual
/-- Every pass-2 directory visit increments `dirCount` and exactly one
of the four visit classes, and the progress tracker's repository count
grows at most as fast as `dirCount`. -/
lemma walk2Node_counts (cancel : Nat → Bool) (skipP : String → Bool)
    (op : String → Bool → OpResult) (path : String) (pos : List String)
    (node : FSNode) (acc : WalkAcc) :
    (walk2Node cancel skipP op path pos node acc).1.dirCount + acc.classSum
        = acc.dirCount + (walk2Node cancel skipP op path pos node acc).1.classSum ∧
    (walk2Node cancel skipP op path pos node acc).1.progressRepos + acc.dirCount
        ≤ acc.progressRepos + (walk2Node cancel skipP op path pos node acc).1.dirCount := by
  cases node with
  | file n =>
    by_cases h1 : cancel acc.step = true <;>
      simp [walk2Node, h1, WalkAcc.classSum, WalkAcc.bumpStep]
  | dir n broken ch =>
    by_cases h1 : cancel acc.step = true
    · simp [walk2Node, h1, WalkAcc.classSum, WalkAcc.bumpStep]
    by_cases h2 : broken = true
    · simp [walk2Node, h1, h2, WalkAcc.classSum, WalkAcc.bumpStep, WalkAcc.walkError]
    by_cases h3 : filepathBase path = ".git"
    · simp [walk2Node, h1, h2, h3, WalkAcc.classSum, WalkAcc.bumpStep,
        WalkAcc.visitDir, WalkAcc.markerVisit]
      omega
    by_cases hg : hasGitMarker ch = true
    · by_cases h4 : skipP path = true
      · simp [walk2Node, h1, h2, h3, h4, hg, WalkAcc.classSum, WalkAcc.bumpStep,
          WalkAcc.visitDir, WalkAcc.progressUpdate, WalkAcc.skipVisit]
        omega
      · by_cases h5 : (op path true).err = some GErr.canceled <;>
          simp [walk2Node, h1, h2, h3, h4, h5, hg, WalkAcc.classSum, WalkAcc.bumpStep,
            WalkAcc.visitDir, WalkAcc.progressUpdate, WalkAcc.repoVisit] <;>
          omega
    · by_cases h4 : skipP path = true
      · simp [walk2Node, h1, h2, h3, h4, hg, WalkAcc.classSum, WalkAcc.bumpStep,
          WalkAcc.visitDir, WalkAcc.progressUpdate, WalkAcc.skipVisit]
        omega
      by_cases h5 : (op path false).err = some GErr.canceled
      · simp [walk2Node, h1, h2, h3, h4, h5, hg, WalkAcc.classSum, WalkAcc.bumpStep,
          WalkAcc.visitDir, WalkAcc.progressUpdate, WalkAcc.nonRepoVisit]
        omega
      · have hch := walk2Children_counts cancel skipP op path pos ch
          (((acc.bumpStep.visitDir pos).progressUpdate
            (hasGitMarker ch)).nonRepoVisit path pos (op path false))
        simp only [walk2Node, h1, h2, h3, h4, h5, hg, Bool.false_eq_true, if_false,
          if_neg, ite_false] at hch ⊢
        revert hch
        simp [WalkAcc.classSum, WalkAcc.bumpStep, WalkAcc.visitDir,
          WalkAcc.progressUpdate, WalkAcc.nonRepoVisit, hg]
        omega

/-- The `walk2Node_counts` lifted to a children list. -/
lemma walk2Children_counts (cancel : Nat → Bool) (skipP : String → Bool)
    (op : String → Bool → OpResult) (path : String) (pos : List String)
    (cs : List FSNode) (acc : WalkAcc) :
    (walk2Children cancel skipP op path pos cs acc).1.dirCount + acc.classSum
        = acc.dirCount + (walk2Children cancel skipP op path pos cs acc).1.classSum ∧
    (walk2Children cancel skipP op path pos cs acc).1.progressRepos + acc.dirCount
        ≤ acc.progressRepos + (walk2Children cancel skipP op path pos cs acc).1.dirCount := by
  cases cs with
  | nil => simp [walk2Children]
  | cons c cs =>
    have hc := walk2Node_counts cancel skipP op (path ++ "/" ++ c.name)
      (pos ++ [c.name]) c acc
    rcases hh : walk2Node cancel skipP op (path ++ "/" ++ c.name)
        (pos ++ [c.name]) c acc with ⟨acc', e⟩
    rw [hh] at hc
    dsimp only at hc
    cases e with
    | some e =>
      simp only [walk2Children, hh]
      exact hc
    | none =>
      have ht := walk2Children_counts cancel skipP op path pos cs acc'
      simp only [walk2Children, hh]
      constructor
      · omega
      · omega
end

mutual
/-- In a well-formed tree whose root path does not end in the marker
name, pass 2 never takes the marker branch: every `.git`-named
directory sits under a repository root that is pruned first. -/
lemma walk2Node_marker (cancel : Nat → Bool) (skipP : String → Bool)
    (op : String → Bool → OpResult) (path : String) (pos : List String)
    (node : FSNode) (acc : WalkAcc) (hwf : TreeWF node = true)
    (hbase : filepathBase path ≠ ".git") :
    (walk2Node cancel skipP op path pos node acc).1.markerVisits
      = acc.markerVisits := by
  cases node with
  | file n =>
    by_cases h1 : cancel acc.step = true <;> simp [walk2Node, h1, WalkAcc.bumpStep]
  | dir n broken ch =>
    by_cases h1 : cancel acc.step = true
    · simp [walk2Node, h1, WalkAcc.bumpStep]
    by_cases h2 : broken = true
    · simp [walk2Node, h1, h2, WalkAcc.bumpStep, WalkAcc.walkError]
    by_cases hg : hasGitMarker ch = true
    · by_cases h4 : skipP path = true
      · simp [walk2Node, h1, h2, hbase, h4, hg, WalkAcc.bumpStep, WalkAcc.visitDir,
          WalkAcc.progressUpdate, WalkAcc.skipVisit]
      · by_cases h5 : (op path true).err = some GErr.canceled <;>
          simp [walk2Node, h1, h2, hbase, h4, h5, hg, WalkAcc.bumpStep,
            WalkAcc.visitDir, WalkAcc.progressUpdate, WalkAcc.repoVisit]
    · by_cases h4 : skipP path = true
      · simp [walk2Node, h1, h2, hbase, h4, hg, WalkAcc.bumpStep, WalkAcc.visitDir,
          WalkAcc.progressUpdate, WalkAcc.skipVisit]
      by_cases h5 : (op path false).err = some GErr.canceled
      · simp [walk2Node, h1, h2, hbase, h4, h5, hg, WalkAcc.bumpStep,
          WalkAcc.visitDir, WalkAcc.progressUpdate, WalkAcc.nonRepoVisit]
      · have hch := walk2Children_marker cancel skipP op path pos ch
          (((acc.bumpStep.visitDir pos).progressUpdate
            (hasGitMarker ch)).nonRepoVisit path pos (op path false))
          (TreeWF_children hwf)
          (hasGitMarker_false (Bool.not_eq_true _ |>.mp hg))
        simp only [walk2Node, h1, h2, hbase, h4, h5, hg, Bool.false_eq_true,
          if_false, ite_false] at hch ⊢
        revert hch
        simp [WalkAcc.bumpStep, WalkAcc.visitDir, WalkAcc.progressUpdate,
          WalkAcc.nonRepoVisit, hg]

/-- The `walk2Node_marker` over a children list of mutually distinct,
non-marker names. -/
lemma walk2Children_marker (cancel : Nat → Bool) (skipP : String → Bool)
    (op : String → Bool → OpResult) (path : String) (pos : List String)
    (cs : List FSNode) (acc : WalkAcc) (hwf : TreeWFCh cs = true)
    (hnames : ∀ c ∈ cs, c.name ≠ ".git") :
    (walk2Children cancel skipP op path pos cs acc).1.markerVisits
      = acc.markerVisits := by
  cases cs with
  | nil => simp [walk2Children]
  | cons c cs =>
    simp only [TreeWFCh, Bool.and_eq_true] at hwf
    have hgood := goodName_spec (TreeWF_name hwf.1)
    have hbase : filepathBase (path ++ "/" ++ c.name) = c.name :=
      filepathBase_append path c.name hgood.1 hgood.2
    have hc := walk2Node_marker cancel skipP op (path ++ "/" ++ c.name)
      (pos ++ [c.name]) c acc hwf.1
      (by rw [hbase]; exact hnames c (by simp))
    rcases hh : walk2Node cancel skipP op (path ++ "/" ++ c.name)
        (pos ++ [c.name]) c acc with ⟨acc', e⟩
    rw [hh] at hc
    dsimp only at hc
    cases e with
    | some e =>
      simp only [walk2Children, hh]
      exact hc
    | none =>
      have ht := walk2Children_marker cancel skipP op path pos cs acc' hwf.2
        (fun d hd => hnames d (List.mem_cons_of_mem _ hd))
      simp only [walk2Children, hh]
      exact ht.trans hc
end

mutual
/-- With an uncancelled context and an operation that never reports
cancellation, pass 2 completes (returns nil) and counts exactly the
directories pass 1 counted: each pass-1 unit is either a repository
visit or a non-repository visit of pass 2. -/
lemma walk2Node_pass1 (skipP : String → Bool) (op : String → Bool → OpResult)
    (path : String) (pos : List String) (node : FSNode) (acc : WalkAcc)
    (hop : ∀ p b, (op p b).err ≠ some GErr.canceled) :
    (walk2Node (fun _ => false) skipP op path pos node acc).2 = none ∧
    (walk2Node (fun _ => false) skipP op path pos node acc).1.gitRepoCount +
      (walk2Node (fun _ => false) skipP op path pos node acc).1.nonRepoOps =
      acc.gitRepoCount + acc.nonRepoOps + walk1Node skipP path node := by
  cases node with
  | file n => simp [walk2Node, walk1Node, WalkAcc.bumpStep]
  | dir n broken ch =>
    by_cases h2 : broken = true
    · simp [walk2Node, walk1Node, h2, WalkAcc.bumpStep, WalkAcc.walkError]
    by_cases h3 : filepathBase path = ".git"
    · simp [walk2Node, walk1Node, h2, h3, WalkAcc.bumpStep, WalkAcc.visitDir,
        WalkAcc.markerVisit]
    by_cases hg : hasGitMarker ch = true
    · by_cases h4 : skipP path = true
      · simp [walk2Node, walk1Node, h2, h3, h4, hg, WalkAcc.bumpStep,
          WalkAcc.visitDir, WalkAcc.progressUpdate, WalkAcc.skipVisit]
      · have h5 := hop path true
        simp [walk2Node, walk1Node, h2, h3, h4, h5, hg, WalkAcc.bumpStep,
          WalkAcc.visitDir, WalkAcc.progressUpdate, WalkAcc.repoVisit]
        omega
    · by_cases h4 : skipP path = true
      · simp [walk2Node, walk1Node, h2, h3, h4, hg, WalkAcc.bumpStep,
          WalkAcc.visitDir, WalkAcc.progressUpdate, WalkAcc.skipVisit]
      · have h5 := hop path false
        have hch := walk2Children_pass1 skipP op path pos ch
          (((acc.bumpStep.visitDir pos).progressUpdate
            (hasGitMarker ch)).nonRepoVisit path pos (op path false)) hop
        simp only [walk2Node, walk1Node, h2, h3, h4, h5, hg, Bool.false_eq_true,
          if_false, ite_false] at hch ⊢
        revert hch
        simp [WalkAcc.bumpStep, WalkAcc.visitDir, WalkAcc.progressUpdate,
          WalkAcc.nonRepoVisit, hg, h5]
        intro hret hcount
        refine ⟨hret, ?_⟩
        omega

/-- The `walk2Node_pass1` over a children list. -/
lemma walk2Children_pass1 (skipP : String → Bool) (op : String → Bool → OpResult)
    (path : String) (pos : List String) (cs : List FSNode) (acc : WalkAcc)
    (hop : ∀ p b, (op p b).err ≠ some GErr.canceled) :
    (walk2Children (fun _ => false) skipP op path pos cs acc).2 = none ∧
    (walk2Children (fun _ => false) skipP op path pos cs acc).1.gitRepoCount +
      (walk2Children (fun _ => false) skipP op path pos cs acc).1.nonRepoOps =
      acc.gitRepoCount + acc.nonRepoOps + walk1Children skipP path cs := by
  cases cs with
  | nil => simp [walk2Children, walk1Children]
  | cons c cs =>
    have hc := walk2Node_pass1 skipP op (path ++ "/" ++ c.name)
      (pos ++ [c.name]) c acc hop
    rcases hh : walk2Node (fun _ => false) skipP op (path ++ "/" ++ c.name)
        (pos ++ [c.name]) c acc with ⟨acc', e⟩
    rw [hh] at hc
    dsimp only at hc
    cases e with
    | some e => simp at hc
    | none =>
      have ht := walk2Children_pass1 skipP op path pos cs acc' hop
      simp only [walk2Children, hh, walk1Children]
      refine ⟨ht.1, ?_⟩
      omega
end

/-- Claim C2, amended: provided the traversal root's basename is not the
marker name `.git` (and the tree is well formed), the pass-2 counters
satisfy `repos + skipped + nonRepoVisited = scanned`, both repository
counts are at most `scanned`, and — when nothing cancels — pass 1's
total agrees with pass 2: `totalDirs = repos + nonRepoVisited`.  (The
unamended equality fails when the root itself is named `.git`: pass 2
counts that visit in `scanned` but in none of the three classes.) -/
theorem C2_pass_counters_consistent (tree : FSNode) (rootPath : String)
    (cancel : Nat → Bool) (skipP : String → Bool) (op : String → Bool → OpResult)
    (hwf : TreeWF tree = true) (hroot : filepathBase rootPath ≠ ".git")
    (hop : ∀ p b, (op p b).err ≠ some GErr.canceled) :
    ((walkDirectories cancel skipP op rootPath tree).repos +
        (walkDirectories cancel skipP op rootPath tree).skipped +
        (walkDirectories cancel skipP op rootPath tree).nonRepoOps =
      (walkDirectories cancel skipP op rootPath tree).scanned) ∧
    (walkDirectories cancel skipP op rootPath tree).repos ≤
      (walkDirectories cancel skipP op rootPath tree).scanned ∧
    (walkDirectories cancel skipP op rootPath tree).progressRepos ≤
      (walkDirectories cancel skipP op rootPath tree).scanned ∧
    (walkDirectories (fun _ => false) skipP op rootPath tree).totalDirs =
      (walkDirectories (fun _ => false) skipP op rootPath tree).repos +
        (walkDirectories (fun _ => false) skipP op rootPath tree).nonRepoOps := by
  have hc := walk2Node_counts cancel skipP op rootPath [] tree WalkAcc.init
  have hm := walk2Node_marker cancel skipP op rootPath [] tree WalkAcc.init hwf hroot
  have hp := walk2Node_pass1 skipP op rootPath [] tree WalkAcc.init hop
  rcases hh : walk2Node cancel skipP op rootPath [] tree WalkAcc.init with ⟨acc, ret⟩
  rcases hh0 : walk2Node (fun _ => false) skipP op rootPath [] tree WalkAcc.init
    with ⟨acc0, ret0⟩
  rw [hh] at hc hm
  rw [hh0] at hp
  dsimp only at hc hm hp
  simp only [walkDirectories, hh, hh0]
  simp only [WalkAcc.init, WalkAcc.classSum] at hc hm hp
  refine ⟨by omega, by omega, by omega, by omega⟩

/-- Counterexample to C2 as stated: walking a root directory that is
itself named `.git` scans one directory but classifies it as none of
processed, skipped, or non-repository visited. -/
theorem C2_counterexample :
    ¬ ((walkDirectories (fun _ => false) (fun _ => false)
          (fun _ _ => ⟨none, [], [], []⟩) "/h/.git" (.dir ".git" false [])).repos +
        (walkDirectories (fun _ => false) (fun _ => false)
          (fun _ _ => ⟨none, [], [], []⟩) "/h/.git" (.dir ".git" false [])).skipped +
        (walkDirectories (fun _ => false) (fun _ => false)
          (fun _ _ => ⟨none, [], [], []⟩) "/h/.git" (.dir ".git" false [])).nonRepoOps =
       (walkDirectories (fun _ => false) (fun _ => false)
          (fun _ _ => ⟨none, [], [], []⟩) "/h/.git" (.dir ".git" false [])).scanned) := by
  decide

/-- Witness for the amended C2 at a concrete two-node repository tree. -/
theorem C2_witness :
    (walkDirectories (fun _ => false) (fun _ => false)
        (fun _ _ => ⟨none, [], [], []⟩) "/r"
        (.dir "r" false [.dir ".git" false []])).repos +
      (walkDirectories (fun _ => false) (fun _ => false)
        (fun _ _ => ⟨none, [], [], []⟩) "/r"
        (.dir "r" false [.dir ".git" false []])).skipped +
      (walkDirectories (fun _ => false) (fun _ => false)
        (fun _ _ => ⟨none, [], [], []⟩) "/r"
        (.dir "r" false [.dir ".git" false []])).nonRepoOps =
    (walkDirectories (fun _ => false) (fun _ => false)
        (fun _ _ => ⟨none, [], [], []⟩) "/r"
        (.dir "r" false [.dir ".git" false []])).scanned :=
  (C2_pass_counters_consistent (.dir "r" false [.dir ".git" false []]) "/r"
    (fun _ => false) (fun _ => false) (fun _ _ => ⟨none, [], [], []⟩)
    (by decide) (by decide) (fun p b => by simp)).1

/-! ## Tree Walker pruning (claim C5) -/

/-- A duplicate-free name list separates its head from its tail. -/
lemma noDupNames_cons {x : String} {xs : List String}
    (h : noDupNames (x :: xs) = true) :
    (∀ y ∈ xs, y ≠ x) ∧ noDupNames xs = true := by
  simp only [noDupNames, Bool.and_eq_true, Bool.not_eq_true'] at h
  refine ⟨?_, h.2⟩
  intro y hy hyx
  rw [hyx] at hy
  have hcon : xs.contains x = true := List.elem_iff.mpr hy
  rw [h.1] at hcon
  cases hcon

/-- A well-formed directory has duplicate-free child names. -/
lemma TreeWF_nodup {n : String} {b : Bool} {ch : List FSNode}
    (h : TreeWF (.dir n b ch) = true) : noDupNames (ch.map FSNode.name) = true := by
  simp only [TreeWF, Bool.and_eq_true] at h
  exact h.1.2

mutual
/-- Every repository position in a subtree extends the subtree's
position. -/
lemma reposIn_extend (pos : List String) (node : FSNode) :
    ∀ q ∈ reposIn pos node, ∃ t, q = pos ++ t := by
  cases node with
  | file n => simp [reposIn]
  | dir n b ch =>
    intro q hq
    simp only [reposIn] at hq
    rcases List.mem_append.mp hq with hq | hq
    · cases hgg : hasGitMarker ch with
      | false => rw [hgg] at hq; simp at hq
      | true =>
        rw [hgg] at hq
        simp only [if_pos, List.mem_singleton] at hq
        exact ⟨[], by simp [hq]⟩
    · obtain ⟨c, _, t, ht⟩ := reposInCh_extend pos ch q hq
      exact ⟨[c.name] ++ t, by simpa using ht⟩

/-- The `reposIn_extend` over a children list: every repository position
goes through some child. -/
lemma reposInCh_extend (pos : List String) (cs : List FSNode) :
    ∀ q ∈ reposInCh pos cs, ∃ c ∈ cs, ∃ t, q = pos ++ [c.name] ++ t := by
  cases cs with
  | nil => simp [reposInCh]
  | cons c cs =>
    intro q hq
    simp only [reposInCh] at hq
    rcases List.mem_append.mp hq with hq | hq
    · obtain ⟨t, ht⟩ := reposIn_extend (pos ++ [c.name]) c q hq
      exact ⟨c, by simp, t, by simpa using ht⟩
    · obtain ⟨d, hd, t, ht⟩ := reposInCh_extend pos cs q hq
      exact ⟨d, by simp [hd], t, ht⟩
end

/-- Strict containment makes the position strictly longer. -/
lemma StrictlyInside.length_lt {q p : List String} (h : StrictlyInside q p) :
    q.length < p.length := by
  obtain ⟨t, htne, rfl⟩ := h
  have : 0 < t.length := List.length_pos.mpr htne
  simp [List.length_append]
  omega

/-- Two paths through distinct children of one node diverge at the
child name. -/
lemma sibling_head_eq (pos : List String) {a b : String} (A B : List String)
    (h : pos ++ a :: A = pos ++ b :: B) : a = b := by
  have h2 := List.append_cancel_left h
  injection h2

mutual
/-- Paths the walker hands to the git operation never lie strictly
inside any repository subtree: a repository root is pruned in the same
visit that detects it. -/
lemma walk2Node_invoked (cancel : Nat → Bool) (skipP : String → Bool)
    (op : String → Bool → OpResult) (path : String) (pos : List String)
    (node : FSNode) (acc : WalkAcc) (hwf : TreeWF node = true) :
    ∀ p ∈ (walk2Node cancel skipP op path pos node acc).1.invokedPos,
      p ∈ acc.invokedPos ∨
      ((∃ t, p = pos ++ t) ∧
        ∀ q ∈ reposIn pos node, ¬ StrictlyInside q p) := by
  cases node with
  | file n =>
    intro p hp
    left
    by_cases h1 : cancel acc.step = true <;>
      simpa [walk2Node, h1, WalkAcc.bumpStep] using hp
  | dir n broken ch =>
    intro p hp
    by_cases h1 : cancel acc.step = true
    · left; simpa [walk2Node, h1, WalkAcc.bumpStep] using hp
    by_cases h2 : broken = true
    · left; simpa [walk2Node, h1, h2, WalkAcc.bumpStep, WalkAcc.walkError] using hp
    by_cases h3 : filepathBase path = ".git"
    · left
      simpa [walk2Node, h1, h2, h3, WalkAcc.bumpStep, WalkAcc.visitDir,
        WalkAcc.markerVisit] using hp
    by_cases hg : hasGitMarker ch = true
    · by_cases h4 : skipP path = true
      · left
        simpa [walk2Node, h1, h2, h3, h4, hg, WalkAcc.bumpStep, WalkAcc.visitDir,
          WalkAcc.progressUpdate, WalkAcc.skipVisit] using hp
      · have hp' : p ∈ acc.invokedPos ∨ p = pos := by
          by_cases h5 : (op path true).err = some GErr.canceled <;>
            simpa [walk2Node, h1, h2, h3, h4, h5, hg, WalkAcc.bumpStep,
              WalkAcc.visitDir, WalkAcc.progressUpdate, WalkAcc.repoVisit] using hp
        rcases hp' with hp' | rfl
        · exact Or.inl hp'
        right
        refine ⟨⟨[], by simp⟩, ?_⟩
        intro q hq hstrict
        simp only [reposIn, hg, if_pos, List.mem_append, List.mem_singleton] at hq
        rcases hq with rfl | hq
        · exact absurd rfl (Nat.ne_of_lt hstrict.length_lt)
        · obtain ⟨c, _, t, rfl⟩ := reposInCh_extend p ch q hq
          have hlen := hstrict.length_lt
          simp only [List.length_append, List.length_cons, List.length_nil] at hlen
          omega
    · by_cases h4 : skipP path = true
      · left
        simpa [walk2Node, h1, h2, h3, h4, hg, WalkAcc.bumpStep, WalkAcc.visitDir,
          WalkAcc.progressUpdate, WalkAcc.skipVisit] using hp
      have hrepos : reposIn pos (FSNode.dir n broken ch) = reposInCh pos ch := by
        simp [reposIn, hg]
      by_cases h5 : (op path false).err = some GErr.canceled
      · have hp' : p ∈ acc.invokedPos ∨ p = pos := by
          simpa [walk2Node, h1, h2, h3, h4, h5, hg, WalkAcc.bumpStep,
            WalkAcc.visitDir, WalkAcc.progressUpdate, WalkAcc.nonRepoVisit] using hp
        rcases hp' with hp' | rfl
        · exact Or.inl hp'
        right
        refine ⟨⟨[], by simp⟩, ?_⟩
        rw [hrepos]
        intro q hq hstrict
        obtain ⟨c, _, t, rfl⟩ := reposInCh_extend p ch q hq
        have hlen := hstrict.length_lt
        simp only [List.length_append, List.length_cons, List.length_nil] at hlen
        omega
      · have hch := walk2Children_invoked cancel skipP op path pos ch
          (((acc.bumpStep.visitDir pos).progressUpdate
            (hasGitMarker ch)).nonRepoVisit path pos (op path false))
          (TreeWF_children hwf) (TreeWF_nodup hwf)
        have hp2 : p ∈ (walk2Children cancel skipP op path pos ch
            (((acc.bumpStep.visitDir pos).progressUpdate
              (hasGitMarker ch)).nonRepoVisit path pos (op path false))).1.invokedPos := by
          simpa [walk2Node, h1, h2, h3, h4, h5, hg] using hp
        rcases hch p hp2 with hin | ⟨⟨c, hcmem, t, rfl⟩, hq⟩
        · have hin' : p ∈ acc.invokedPos ∨ p = pos := by
            simpa [hg, WalkAcc.bumpStep, WalkAcc.visitDir, WalkAcc.progressUpdate,
              WalkAcc.nonRepoVisit] using hin
          rcases hin' with hin' | rfl
          · exact Or.inl hin'
          right
          refine ⟨⟨[], by simp⟩, ?_⟩
          rw [hrepos]
          intro q hqq hstrict
          obtain ⟨c, _, t, rfl⟩ := reposInCh_extend p ch q hqq
          have hlen := hstrict.length_lt
          simp only [List.length_append, List.length_cons, List.length_nil] at hlen
          omega
        · right
          refine ⟨⟨[c.name] ++ t, by simp⟩, ?_⟩
          rw [hrepos]
          exact hq

/-- The `walk2Node_invoked` over a duplicate-free children list. -/
lemma walk2Children_invoked (cancel : Nat → Bool) (skipP : String → Bool)
    (op : String → Bool → OpResult) (path : String) (pos : List String)
    (cs : List FSNode) (acc : WalkAcc) (hwf : TreeWFCh cs = true)
    (hnodup : noDupNames (cs.map FSNode.name) = true) :
    ∀ p ∈ (walk2Children cancel skipP op path pos cs acc).1.invokedPos,
      p ∈ acc.invokedPos ∨
      ((∃ c ∈ cs, ∃ t, p = pos ++ [c.name] ++ t) ∧
        ∀ q ∈ reposInCh pos cs, ¬ StrictlyInside q p) := by
  cases cs with
  | nil => intro p hp; left; simpa [walk2Children] using hp
  | cons c cs =>
    intro p hp
    simp only [TreeWFCh, Bool.and_eq_true] at hwf
    simp only [List.map_cons] at hnodup
    have hnodup' := noDupNames_cons hnodup
    have hnode := walk2Node_invoked cancel skipP op (path ++ "/" ++ c.name)
      (pos ++ [c.name]) c acc hwf.1
    rcases hh : walk2Node cancel skipP op (path ++ "/" ++ c.name)
        (pos ++ [c.name]) c acc with ⟨acc', e⟩
    rw [hh] at hnode
    dsimp only at hnode
    have hfromNode : ∀ r ∈ acc'.invokedPos,
        r ∈ acc.invokedPos ∨
        ((∃ d ∈ c :: cs, ∃ t, r = pos ++ [d.name] ++ t) ∧
          ∀ q ∈ reposInCh pos (c :: cs), ¬ StrictlyInside q r) := by
      intro r hr
      rcases hnode r hr with hr' | ⟨⟨t, rfl⟩, hq⟩
      · exact Or.inl hr'
      right
      refine ⟨⟨c, by simp, t, by simp⟩, ?_⟩
      intro q hqq hstrict
      simp only [reposInCh, List.mem_append] at hqq
      rcases hqq with hqq | hqq
      · exact hq q hqq hstrict
      · obtain ⟨d, hd, tq, rfl⟩ := reposInCh_extend pos cs q hqq
        obtain ⟨u, hune, hueq⟩ := hstrict
        have hdc : d.name = c.name := by
          apply sibling_head_eq pos (tq ++ u) t
          simpa [List.append_assoc] using hueq.symm
        exact absurd hdc
          (hnodup'.1 d.name (List.mem_map_of_mem FSNode.name hd))
    cases e with
    | some e =>
      have hp' : p ∈ acc'.invokedPos := by
        simpa [walk2Children, hh] using hp
      exact hfromNode p hp'
    | none =>
      have hp' : p ∈ (walk2Children cancel skipP op path pos cs acc').1.invokedPos := by
        simpa [walk2Children, hh] using hp
      have hih := walk2Children_invoked cancel skipP op path pos cs acc'
        hwf.2 hnodup'.2
      rcases hih p hp' with hin | ⟨⟨d, hd, t, rfl⟩, hq⟩
      · exact hfromNode p hin
      right
      refine ⟨⟨d, by simp [hd], t, rfl⟩, ?_⟩
      intro q hqq hstrict
      simp only [reposInCh, List.mem_append] at hqq
      rcases hqq with hqq | hqq
      · obtain ⟨tq, rfl⟩ := reposIn_extend (pos ++ [c.name]) c q hqq
        obtain ⟨u, hune, hueq⟩ := hstrict
        have hdc : d.name = c.name := by
          apply sibling_head_eq pos t (tq ++ u)
          simpa [List.append_assoc] using hueq
        exact absurd hdc
          (hnodup'.1 d.name (List.mem_map_of_mem FSNode.name hd))
      · exact hq q hqq hstrict
end

mutual
/-- The walker never descends past a `.git`-named directory: every
visited position (below a marker-free starting position) has no `.git`
segment at all. -/
lemma walk2Node_visited (cancel : Nat → Bool) (skipP : String → Bool)
    (op : String → Bool → OpResult) (path : String) (pos : List String)
    (node : FSNode) (acc : WalkAcc) (hpos : ".git" ∉ pos) :
    ∀ p ∈ (walk2Node cancel skipP op path pos node acc).1.visitedPos,
      p ∈ acc.visitedPos ∨ ".git" ∉ p := by
  cases node with
  | file n =>
    intro p hp
    left
    by_cases h1 : cancel acc.step = true <;>
      simpa [walk2Node, h1, WalkAcc.bumpStep] using hp
  | dir n broken ch =>
    intro p hp
    by_cases h1 : cancel acc.step = true
    · left; simpa [walk2Node, h1, WalkAcc.bumpStep] using hp
    by_cases h2 : broken = true
    · left; simpa [walk2Node, h1, h2, WalkAcc.bumpStep, WalkAcc.walkError] using hp
    by_cases h3 : filepathBase path = ".git"
    · have hp' : p ∈ acc.visitedPos ∨ p = pos := by
        simpa [walk2Node, h1, h2, h3, WalkAcc.bumpStep, WalkAcc.visitDir,
          WalkAcc.markerVisit] using hp
      rcases hp' with hp' | rfl
      · exact Or.inl hp'
      · exact Or.inr hpos
    by_cases hg : hasGitMarker ch = true
    · have hp' : p ∈ acc.visitedPos ∨ p = pos := by
        by_cases h4 : skipP path = true
        · simpa [walk2Node, h1, h2, h3, h4, hg, WalkAcc.bumpStep, WalkAcc.visitDir,
            WalkAcc.progressUpdate, WalkAcc.skipVisit] using hp
        · by_cases h5 : (op path true).err = some GErr.canceled <;>
            simpa [walk2Node, h1, h2, h3, h4, h5, hg, WalkAcc.bumpStep,
              WalkAcc.visitDir, WalkAcc.progressUpdate, WalkAcc.repoVisit] using hp
      rcases hp' with hp' | rfl
      · exact Or.inl hp'
      · exact Or.inr hpos
    · by_cases h4 : skipP path = true
      · have hp' : p ∈ acc.visitedPos ∨ p = pos := by
          simpa [walk2Node, h1, h2, h3, h4, hg, WalkAcc.bumpStep, WalkAcc.visitDir,
            WalkAcc.progressUpdate, WalkAcc.skipVisit] using hp
        rcases hp' with hp' | rfl
        · exact Or.inl hp'
        · exact Or.inr hpos
      by_cases h5 : (op path false).err = some GErr.canceled
      · have hp' : p ∈ acc.visitedPos ∨ p = pos := by
          simpa [walk2Node, h1, h2, h3, h4, h5, hg, WalkAcc.bumpStep,
            WalkAcc.visitDir, WalkAcc.progressUpdate, WalkAcc.nonRepoVisit] using hp
        rcases hp' with hp' | rfl
        · exact Or.inl hp'
        · exact Or.inr hpos
      · have hch := walk2Children_visited cancel skipP op path pos ch
          (((acc.bumpStep.visitDir pos).progressUpdate
            (hasGitMarker ch)).nonRepoVisit path pos (op path false)) hpos
          (hasGitMarker_false (Bool.not_eq_true _ |>.mp hg))
        have hp2 : p ∈ (walk2Children cancel skipP op path pos ch
            (((acc.bumpStep.visitDir pos).progressUpdate
              (hasGitMarker ch)).nonRepoVisit path pos (op path false))).1.visitedPos := by
          simpa [walk2Node, h1, h2, h3, h4, h5, hg] using hp
        rcases hch p hp2 with hin | hgit
        · have hin' : p ∈ acc.visitedPos ∨ p = pos := by
            simpa [hg, WalkAcc.bumpStep, WalkAcc.visitDir, WalkAcc.progressUpdate,
              WalkAcc.nonRepoVisit] using hin
          rcases hin' with hin' | rfl
          · exact Or.inl hin'
          · exact Or.inr hpos
        · exact Or.inr hgit

/-- The `walk2Node_visited` over a children list with marker-free names. -/
lemma walk2Children_visited (cancel : Nat → Bool) (skipP : String → Bool)
    (op : String → Bool → OpResult) (path : String) (pos : List String)
    (cs : List FSNode) (acc : WalkAcc) (hpos : ".git" ∉ pos)
    (hnames : ∀ c ∈ cs, c.name ≠ ".git") :
    ∀ p ∈ (walk2Children cancel skipP op path pos cs acc).1.visitedPos,
      p ∈ acc.visitedPos ∨ ".git" ∉ p := by
  cases cs with
  | nil => intro p hp; left; simpa [walk2Children] using hp
  | cons c cs =>
    intro p hp
    have hpos' : ".git" ∉ pos ++ [c.name] := by
      intro hmem
      rcases List.mem_append.mp hmem with hmem | hmem
      · exact hpos hmem
      · exact hnames c (by simp) (List.mem_singleton.mp hmem).symm
    have hnode := walk2Node_visited cancel skipP op (path ++ "/" ++ c.name)
      (pos ++ [c.name]) c acc hpos'
    rcases hh : walk2Node cancel skipP op (path ++ "/" ++ c.name)
        (pos ++ [c.name]) c acc with ⟨acc', e⟩
    rw [hh] at hnode
    dsimp only at hnode
    cases e with
    | some e =>
      have hp' : p ∈ acc'.visitedPos := by
        simpa [walk2Children, hh] using hp
      exact hnode p hp'
    | none =>
      have hp' : p ∈ (walk2Children cancel skipP op path pos cs acc').1.visitedPos := by
        simpa [walk2Children, hh] using hp
      have hih := walk2Children_visited cancel skipP op path pos cs acc' hpos
        (fun d hd => hnames d (List.mem_cons_of_mem _ hd))
      rcases hih p hp' with hin | hgit
      · exact hnode p hin
      · exact Or.inr hgit
end

/-- Claim C5: the walker never invokes the git operation on a path
strictly inside any repository's subtree (repository roots are pruned
where detected), and never descends into a `.git`-named directory —
no visited position contains a `.git` segment. -/
theorem C5_repo_subtrees_pruned (tree : FSNode) (rootPath : String)
    (cancel : Nat → Bool) (skipP : String → Bool) (op : String → Bool → OpResult)
    (hwf : TreeWF tree = true) :
    (∀ q ∈ reposIn [] tree,
      ∀ p ∈ (walkDirectories cancel skipP op rootPath tree).invokedPos,
        ¬ StrictlyInside q p) ∧
    (∀ p ∈ (walkDirectories cancel skipP op rootPath tree).visitedPos,
      ".git" ∉ p) := by
  have hi := walk2Node_invoked cancel skipP op rootPath [] tree WalkAcc.init hwf
  have hv := walk2Node_visited cancel skipP op rootPath [] tree WalkAcc.init
    (by simp)
  rcases hh : walk2Node cancel skipP op rootPath [] tree WalkAcc.init with ⟨acc, ret⟩
  rw [hh] at hi hv
  dsimp only at hi hv
  simp only [walkDirectories, hh]
  constructor
  · intro q hq p hp
    rcases hi p hp with hin | ⟨_, hq'⟩
    · simp [WalkAcc.init] at hin
    · exact hq' q hq
  · intro p hp
    rcases hv p hp with hin | h
    · simp [WalkAcc.init] at hin
    · exact h

/-- Witness for C5 on a concrete tree with a repository that has
internal subdirectories. -/
theorem C5_witness :
    (∀ q ∈ reposIn [] (.dir "r" false
        [.dir "a" false [.dir ".git" false [], .dir "s" false []]]),
      ∀ p ∈ (walkDirectories (fun _ => false) (fun _ => false)
          (fun _ _ => ⟨none, [], [], []⟩) "/r"
          (.dir "r" false
            [.dir "a" false [.dir ".git" false [], .dir "s" false []]])).invokedPos,
        ¬ StrictlyInside q p) ∧
    (∀ p ∈ (walkDirectories (fun _ => false) (fun _ => false)
        (fun _ _ => ⟨none, [], [], []⟩) "/r"
        (.dir "r" false
          [.dir "a" false [.dir ".git" false [], .dir "s" false []]])).visitedPos,
      ".git" ∉ p) :=
  C5_repo_subtrees_pruned
    (.dir "r" false [.dir "a" false [.dir ".git" false [], .dir "s" false []]])
    "/r" (fun _ => false) (fun _ => false) (fun _ _ => ⟨none, [], [], []⟩)
    (by decide)

/-! ## Cancellation (claim C4) -/

/-- A visit that begins under a cancelled context does no per-node work
and returns the context's error at once. -/
lemma walk2Node_cancel_now (cancel : Nat → Bool) (skipP : String → Bool)
    (op : String → Bool → OpResult) (path : String) (pos : List String)
    (node : FSNode) (acc : WalkAcc) (h : cancel acc.step = true) :
    walk2Node cancel skipP op path pos node acc = (acc.bumpStep, some .canceled) := by
  cases node <;> simp [walk2Node, h]

mutual
/-- The pass-2 terminal error is nil or the cancellation error — no
other per-node condition is ever propagated. -/
lemma walk2Node_ret_shape (cancel : Nat → Bool) (skipP : String → Bool)
    (op : String → Bool → OpResult) (path : String) (pos : List String)
    (node : FSNode) (acc : WalkAcc) :
    (walk2Node cancel skipP op path pos node acc).2 = none ∨
    (walk2Node cancel skipP op path pos node acc).2 = some GErr.canceled := by
  cases node with
  | file n =>
    by_cases h1 : cancel acc.step = true <;> simp [walk2Node, h1]
  | dir n broken ch =>
    by_cases h1 : cancel acc.step = true
    · simp [walk2Node, h1]
    by_cases h2 : broken = true
    · simp [walk2Node, h1, h2]
    by_cases h3 : filepathBase path = ".git"
    · simp [walk2Node, h1, h2, h3]
    by_cases hg : hasGitMarker ch = true
    · by_cases h4 : skipP path = true
      · simp [walk2Node, h1, h2, h3, h4, hg]
      · by_cases h5 : (op path true).err = some GErr.canceled <;>
          simp [walk2Node, h1, h2, h3, h4, h5, hg]
    · by_cases h4 : skipP path = true
      · simp [walk2Node, h1, h2, h3, h4, hg]
      by_cases h5 : (op path false).err = some GErr.canceled
      · simp [walk2Node, h1, h2, h3, h4, h5, hg]
      · have hch := walk2Children_ret_shape cancel skipP op path pos ch
          (((acc.bumpStep.visitDir pos).progressUpdate
            (hasGitMarker ch)).nonRepoVisit path pos (op path false))
        simpa [walk2Node, h1, h2, h3, h4, h5, hg] using hch

/-- The `walk2Node_ret_shape` over a children list. -/
lemma walk2Children_ret_shape (cancel : Nat → Bool) (skipP : String → Bool)
    (op : String → Bool → OpResult) (path : String) (pos : List String)
    (cs : List FSNode) (acc : WalkAcc) :
    (walk2Children cancel skipP op path pos cs acc).2 = none ∨
    (walk2Children cancel skipP op path pos cs acc).2 = some GErr.canceled := by
  cases cs with
  | nil => simp [walk2Children]
  | cons c cs =>
    have hc := walk2Node_ret_shape cancel skipP op (path ++ "/" ++ c.name)
      (pos ++ [c.name]) c acc
    rcases hh : walk2Node cancel skipP op (path ++ "/" ++ c.name)
        (pos ++ [c.name]) c acc with ⟨acc', e⟩
    rw [hh] at hc
    dsimp only at hc
    cases e with
    | some e =>
      simp only [walk2Children, hh]
      simpa using hc
    | none =>
      have ht := walk2Children_ret_shape cancel skipP op path pos cs acc'
      simpa [walk2Children, hh] using ht
end

mutual
/-- Visit steps advance monotonically, and a walk that terminates
normally saw an uncancelled context at every one of its visits:
cancellation takes effect within one node-visit. -/
lemma walk2Node_steps (cancel : Nat → Bool) (skipP : String → Bool)
    (op : String → Bool → OpResult) (path : String) (pos : List String)
    (node : FSNode) (acc : WalkAcc) :
    acc.step ≤ (walk2Node cancel skipP op path pos node acc).1.step ∧
    ((walk2Node cancel skipP op path pos node acc).2 = none →
      ∀ k, acc.step ≤ k → k < (walk2Node cancel skipP op path pos node acc).1.step →
        cancel k = false) := by
  cases node with
  | file n =>
    by_cases h1 : cancel acc.step = true
    · simp [walk2Node, h1, WalkAcc.bumpStep]
    · refine ⟨by simp [walk2Node, h1, WalkAcc.bumpStep], ?_⟩
      intro _ k hk1 hk2
      simp [walk2Node, h1, WalkAcc.bumpStep] at hk2
      have : k = acc.step := by omega
      subst this
      exact Bool.not_eq_true _ |>.mp h1
  | dir n broken ch =>
    by_cases h1 : cancel acc.step = true
    · simp [walk2Node, h1, WalkAcc.bumpStep]
    have hcf : cancel acc.step = false := Bool.not_eq_true _ |>.mp h1
    by_cases h2 : broken = true
    · refine ⟨by simp [walk2Node, h1, h2, WalkAcc.bumpStep, WalkAcc.walkError], ?_⟩
      intro _ k hk1 hk2
      simp [walk2Node, h1, h2, WalkAcc.bumpStep, WalkAcc.walkError] at hk2
      have : k = acc.step := by omega
      subst this
      exact hcf
    by_cases h3 : filepathBase path = ".git"
    · refine ⟨by simp [walk2Node, h1, h2, h3, WalkAcc.bumpStep, WalkAcc.visitDir,
        WalkAcc.markerVisit], ?_⟩
      intro _ k hk1 hk2
      simp [walk2Node, h1, h2, h3, WalkAcc.bumpStep, WalkAcc.visitDir,
        WalkAcc.markerVisit] at hk2
      have : k = acc.step := by omega
      subst this
      exact hcf
    by_cases hg : hasGitMarker ch = true
    · by_cases h4 : skipP path = true
      · refine ⟨by simp [walk2Node, h1, h2, h3, h4, hg, WalkAcc.bumpStep,
          WalkAcc.visitDir, WalkAcc.progressUpdate, WalkAcc.skipVisit], ?_⟩
        intro _ k hk1 hk2
        simp [walk2Node, h1, h2, h3, h4, hg, WalkAcc.bumpStep, WalkAcc.visitDir,
          WalkAcc.progressUpdate, WalkAcc.skipVisit] at hk2
        have : k = acc.step := by omega
        subst this
        exact hcf
      · by_cases h5 : (op path true).err = some GErr.canceled <;>
        · refine ⟨by simp [walk2Node, h1, h2, h3, h4, h5, hg, WalkAcc.bumpStep,
            WalkAcc.visitDir, WalkAcc.progressUpdate, WalkAcc.repoVisit], ?_⟩
          intro _ k hk1 hk2
          simp [walk2Node, h1, h2, h3, h4, h5, hg, WalkAcc.bumpStep,
            WalkAcc.visitDir, WalkAcc.progressUpdate, WalkAcc.repoVisit] at hk2
          have : k = acc.step := by omega
          subst this
          exact hcf
    · by_cases h4 : skipP path = true
      · refine ⟨by simp [walk2Node, h1, h2, h3, h4, hg, WalkAcc.bumpStep,
          WalkAcc.visitDir, WalkAcc.progressUpdate, WalkAcc.skipVisit], ?_⟩
        intro _ k hk1 hk2
        simp [walk2Node, h1, h2, h3, h4, hg, WalkAcc.bumpStep, WalkAcc.visitDir,
          WalkAcc.progressUpdate, WalkAcc.skipVisit] at hk2
        have : k = acc.step := by omega
        subst this
        exact hcf
      by_cases h5 : (op path false).err = some GErr.canceled
      · refine ⟨by simp [walk2Node, h1, h2, h3, h4, h5, hg, WalkAcc.bumpStep,
          WalkAcc.visitDir, WalkAcc.progressUpdate, WalkAcc.nonRepoVisit], ?_⟩
        intro _ k hk1 hk2
        simp [walk2Node, h1, h2, h3, h4, h5, hg, WalkAcc.bumpStep, WalkAcc.visitDir,
          WalkAcc.progressUpdate, WalkAcc.nonRepoVisit] at hk2
        have : k = acc.step := by omega
        subst this
        exact hcf
      · have hgf : hasGitMarker ch = false := Bool.not_eq_true _ |>.mp hg
        have hch := walk2Children_steps cancel skipP op path pos ch
          (((acc.bumpStep.visitDir pos).progressUpdate
            false).nonRepoVisit path pos (op path false))
        have hstep : (((acc.bumpStep.visitDir pos).progressUpdate
            false).nonRepoVisit path pos (op path false)).step
            = acc.step + 1 := by
          simp [WalkAcc.bumpStep, WalkAcc.visitDir, WalkAcc.progressUpdate,
            WalkAcc.nonRepoVisit]
        rw [hstep] at hch
        constructor
        · have := hch.1
          simp only [walk2Node, h1, h2, h3, h4, h5, hg, hgf, Bool.false_eq_true,
            if_false, ite_false]
          omega
        · intro hret k hk1 hk2
          have hret' : (walk2Children cancel skipP op path pos ch
              (((acc.bumpStep.visitDir pos).progressUpdate
                false).nonRepoVisit path pos (op path false))).2 = none := by
            simpa [walk2Node, h1, h2, h3, h4, h5, hg, hgf] using hret
          have hk2' : k < (walk2Children cancel skipP op path pos ch
              (((acc.bumpStep.visitDir pos).progressUpdate
                false).nonRepoVisit path pos (op path false))).1.step := by
            simpa [walk2Node, h1, h2, h3, h4, h5, hg, hgf] using hk2
          rcases Nat.lt_or_ge k (acc.step + 1) with hk | hk
          · have : k = acc.step := by omega
            subst this
            exact hcf
          · exact hch.2 hret' k hk hk2'

/-- The `walk2Node_steps` over a children list. -/
lemma walk2Children_steps (cancel : Nat → Bool) (skipP : String → Bool)
    (op : String → Bool → OpResult) (path : String) (pos : List String)
    (cs : List FSNode) (acc : WalkAcc) :
    acc.step ≤ (walk2Children cancel skipP op path pos cs acc).1.step ∧
    ((walk2Children cancel skipP op path pos cs acc).2 = none →
      ∀ k, acc.step ≤ k →
        k < (walk2Children cancel skipP op path pos cs acc).1.step →
        cancel k = false) := by
  cases cs with
  | nil =>
    refine ⟨by simp [walk2Children], ?_⟩
    intro _ k hk1 hk2
    simp only [walk2Children] at hk2
    exact absurd hk2 (by omega)
  | cons c cs =>
    have hc := walk2Node_steps cancel skipP op (path ++ "/" ++ c.name)
      (pos ++ [c.name]) c acc
    rcases hh : walk2Node cancel skipP op (path ++ "/" ++ c.name)
        (pos ++ [c.name]) c acc with ⟨acc', e⟩
    rw [hh] at hc
    dsimp only at hc
    cases e with
    | some e =>
      simp only [walk2Children, hh]
      exact ⟨hc.1, by intro h; simp at h⟩
    | none =>
      have ht := walk2Children_steps cancel skipP op path pos cs acc'
      simp only [walk2Children, hh]
      constructor
      · omega
      · intro hret k hk1 hk2
        rcases Nat.lt_or_ge k acc'.step with hk | hk
        · exact hc.2 rfl k hk1 hk
        · exact ht.2 hret k hk hk2
end

/-- Claim C4: context cancellation is the only early-terminating,
propagated condition: a context cancelled before the walk aborts it at
the very first visit with the context's error and zero per-node work;
a walk that saw cancellation returns the cancellation error (and its
return is never any other error), every completed visit ran under an
uncancelled context; and without cancellation — whatever walk errors,
skips, or operation failures occur — the walk returns nil. -/
theorem C4_cancellation_only_early_exit (tree : FSNode) (rootPath : String)
    (cancel : Nat → Bool) (skipP : String → Bool) (op : String → Bool → OpResult) :
    (cancel 0 = true →
      (walkDirectories cancel skipP op rootPath tree).ret = some GErr.canceled ∧
      (walkDirectories cancel skipP op rootPath tree).scanned = 0 ∧
      (walkDirectories cancel skipP op rootPath tree).invokedPos = []) ∧
    ((walkDirectories cancel skipP op rootPath tree).ret = some GErr.canceled ∨
      ((walkDirectories cancel skipP op rootPath tree).ret = none ∧
        ∀ k < (walkDirectories cancel skipP op rootPath tree).steps,
          cancel k = false)) ∧
    ((∀ p b, (op p b).err ≠ some GErr.canceled) →
      (walkDirectories (fun _ => false) skipP op rootPath tree).ret = none) := by
  refine ⟨?_, ?_, ?_⟩
  · intro h0
    have h := walk2Node_cancel_now cancel skipP op rootPath [] tree WalkAcc.init
      (by simpa [WalkAcc.init] using h0)
    simp only [walkDirectories, h]
    simp [WalkAcc.init, WalkAcc.bumpStep]
  · have hshape := walk2Node_ret_shape cancel skipP op rootPath [] tree WalkAcc.init
    have hsteps := walk2Node_steps cancel skipP op rootPath [] tree WalkAcc.init
    rcases hh : walk2Node cancel skipP op rootPath [] tree WalkAcc.init with ⟨acc, ret⟩
    rw [hh] at hshape hsteps
    dsimp only at hshape hsteps
    simp only [walkDirectories, hh]
    rcases hshape with hnone | hcanc
    · right
      refine ⟨hnone, ?_⟩
      intro k hk
      exact hsteps.2 hnone k (by simp [WalkAcc.init]) hk
    · left
      exact hcanc
  · intro hop
    have hp := walk2Node_pass1 skipP op rootPath [] tree WalkAcc.init hop
    rcases hh : walk2Node (fun _ => false) skipP op rootPath [] tree WalkAcc.init
      with ⟨acc, ret⟩
    rw [hh] at hp
    dsimp only at hp
    simp only [walkDirectories, hh]
    exact hp.1

/-- Witness for C4: a pre-cancelled context aborts the walk instantly;
an uncancelled walk over a failing operation still returns nil. -/
theorem C4_witness :
    ((walkDirectories (fun _ => true) (fun _ => false)
        (fun _ _ => ⟨none, [], [], []⟩) "/r" (.dir "r" false [])).ret =
          some GErr.canceled ∧
      (walkDirectories (fun _ => true) (fun _ => false)
        (fun _ _ => ⟨none, [], [], []⟩) "/r" (.dir "r" false [])).scanned = 0 ∧
      (walkDirectories (fun _ => true) (fun _ => false)
        (fun _ _ => ⟨none, [], [], []⟩) "/r" (.dir "r" false [])).invokedPos = []) ∧
    (walkDirectories (fun _ => false) (fun _ => false)
      (fun p _ => ⟨some (.other "exit status 1"), [.errorEv p "exit status 1"], [], [p]⟩)
      "/r" (.dir "r" false [.dir ".git" false []])).ret = none :=
  ⟨(C4_cancellation_only_early_exit (.dir "r" false []) "/r" (fun _ => true)
      (fun _ => false) (fun _ _ => ⟨none, [], [], []⟩)).1 rfl,
   (C4_cancellation_only_early_exit (.dir "r" false [.dir ".git" false []]) "/r"
      (fun _ => false) (fun _ => false)
      (fun p _ => ⟨some (.other "exit status 1"), [.errorEv p "exit status 1"], [], [p]⟩)).2.2
      (fun p b => by simp)⟩

/-! ## Output buffer and error events (claims C10, C3) -/

/-- The composed recursive git operation never hands the walker a
cancellation error when the context is live. -/
lemma gitOp_err_none (statusOp progressMode : Bool)
    (runner : String → String × Option String) (p : String) (b : Bool) :
    (gitOp statusOp progressMode runner p b).err = none := by
  unfold gitOp ExecuteCommand runCommand
  rcases hr : runner p with ⟨out, err⟩
  cases b <;> cases err <;> simp [hr]

/-- Every output `runCommand` buffers carries a nil error. -/
lemma gitOp_buffer_err_none (statusOp progressMode : Bool)
    (runner : String → String × Option String) (p : String) (b : Bool) :
    ∀ o ∈ (gitOp statusOp progressMode runner p b).buffered, o.error = none := by
  intro o ho
  unfold gitOp ExecuteCommand runCommand at ho
  rcases hr : runner p with ⟨out, err⟩
  rw [hr] at ho
  cases b with
  | false => simp at ho
  | true =>
    cases err with
    | none =>
      simp only [Bool.not_true, Bool.false_eq_true, if_false, ite_false] at ho
      split at ho
      · simp only [List.mem_singleton] at ho
        rw [ho]
      · simp at ho
    | some e => simp at ho

/-- The error-callback events of one composed git invocation are
exactly the failure event of its runner call (and the non-repository
invocation emits none). -/
lemma gitOp_errCb (statusOp progressMode : Bool)
    (runner : String → String × Option String) (p : String) :
    errCbEvents (gitOp statusOp progressMode runner p true).events =
      List.filterMap (failEvent runner) [p] ∧
    (gitOp statusOp progressMode runner p false).events = [] := by
  constructor
  · unfold gitOp ExecuteCommand runCommand
    simp only [Bool.not_true, Bool.false_eq_true, if_false, ite_false]
    rcases hr : runner p with ⟨out, err⟩
    cases err <;> simp [errCbEvents, failEvent, hr]
  · simp [gitOp, ExecuteCommand]

mutual
/-- Buffered outputs keep nil errors through the whole walk. -/
lemma walk2Node_buffer (cancel : Nat → Bool) (skipP : String → Bool)
    (statusOp progressMode : Bool) (runner : String → String × Option String)
    (path : String) (pos : List String) (node : FSNode) (acc : WalkAcc)
    (hacc : ∀ o ∈ acc.buffer, o.error = none) :
    ∀ o ∈ (walk2Node cancel skipP (gitOp statusOp progressMode runner)
      path pos node acc).1.buffer, o.error = none := by
  cases node with
  | file n =>
    intro o ho
    apply hacc
    by_cases h1 : cancel acc.step = true <;>
      simpa [walk2Node, h1, WalkAcc.bumpStep] using ho
  | dir n broken ch =>
    intro o ho
    by_cases h1 : cancel acc.step = true
    · exact hacc o (by simpa [walk2Node, h1, WalkAcc.bumpStep] using ho)
    by_cases h2 : broken = true
    · exact hacc o
        (by simpa [walk2Node, h1, h2, WalkAcc.bumpStep, WalkAcc.walkError] using ho)
    by_cases h3 : filepathBase path = ".git"
    · exact hacc o (by simpa [walk2Node, h1, h2, h3, WalkAcc.bumpStep,
        WalkAcc.visitDir, WalkAcc.markerVisit] using ho)
    by_cases hg : hasGitMarker ch = true
    · by_cases h4 : skipP path = true
      · exact hacc o (by simpa [walk2Node, h1, h2, h3, h4, hg, WalkAcc.bumpStep,
          WalkAcc.visitDir, WalkAcc.progressUpdate, WalkAcc.skipVisit] using ho)
      · have ho' : o ∈ acc.buffer ∨
            o ∈ (gitOp statusOp progressMode runner path true).buffered := by
          by_cases h5 : (gitOp statusOp progressMode runner path true).err =
              some GErr.canceled <;>
            simpa [walk2Node, h1, h2, h3, h4, h5, hg, WalkAcc.bumpStep,
              WalkAcc.visitDir, WalkAcc.progressUpdate, WalkAcc.repoVisit] using ho
        rcases ho' with ho' | ho'
        · exact hacc o ho'
        · exact gitOp_buffer_err_none statusOp progressMode runner path true o ho'
    · by_cases h4 : skipP path = true
      · exact hacc o (by simpa [walk2Node, h1, h2, h3, h4, hg, WalkAcc.bumpStep,
          WalkAcc.visitDir, WalkAcc.progressUpdate, WalkAcc.skipVisit] using ho)
      by_cases h5 : (gitOp statusOp progressMode runner path false).err =
          some GErr.canceled
      · have ho' : o ∈ acc.buffer ∨
            o ∈ (gitOp statusOp progressMode runner path false).buffered := by
          simpa [walk2Node, h1, h2, h3, h4, h5, hg, WalkAcc.bumpStep,
            WalkAcc.visitDir, WalkAcc.progressUpdate, WalkAcc.nonRepoVisit] using ho
        rcases ho' with ho' | ho'
        · exact hacc o ho'
        · exact gitOp_buffer_err_none statusOp progressMode runner path false o ho'
      · have hacc3 : ∀ o ∈ (((acc.bumpStep.visitDir pos).progressUpdate
            (hasGitMarker ch)).nonRepoVisit path pos
            (gitOp statusOp progressMode runner path false)).buffer,
            o.error = none := by
          intro o' ho'
          have ho2 : o' ∈ acc.buffer ∨
              o' ∈ (gitOp statusOp progressMode runner path false).buffered := by
            simpa [hg, WalkAcc.bumpStep, WalkAcc.visitDir, WalkAcc.progressUpdate,
              WalkAcc.nonRepoVisit] using ho'
          rcases ho2 with ho2 | ho2
          · exact hacc o' ho2
          · exact gitOp_buffer_err_none statusOp progressMode runner path false o' ho2
        have hch := walk2Children_buffer cancel skipP statusOp progressMode runner
          path pos ch
          (((acc.bumpStep.visitDir pos).progressUpdate
            (hasGitMarker ch)).nonRepoVisit path pos
            (gitOp statusOp progressMode runner path false)) hacc3
        exact hch o (by simpa [walk2Node, h1, h2, h3, h4, h5, hg] using ho)

/-- The `walk2Node_buffer` over a children list. -/
lemma walk2Children_buffer (cancel : Nat → Bool) (skipP : String → Bool)
    (statusOp progressMode : Bool) (runner : String → String × Option String)
    (path : String) (pos : List String) (cs : List FSNode) (acc : WalkAcc)
    (hacc : ∀ o ∈ acc.buffer, o.error = none) :
    ∀ o ∈ (walk2Children cancel skipP (gitOp statusOp progressMode runner)
      path pos cs acc).1.buffer, o.error = none := by
  cases cs with
  | nil => intro o ho; exact hacc o (by simpa [walk2Children] using ho)
  | cons c cs =>
    intro o ho
    have hc := walk2Node_buffer cancel skipP statusOp progressMode runner
      (path ++ "/" ++ c.name) (pos ++ [c.name]) c acc hacc
    rcases hh : walk2Node cancel skipP (gitOp statusOp progressMode runner)
        (path ++ "/" ++ c.name) (pos ++ [c.name]) c acc with ⟨acc', e⟩
    rw [hh] at hc
    dsimp only at hc
    cases e with
    | some e => exact hc o (by simpa [walk2Children, hh] using ho)
    | none =>
      have ht := walk2Children_buffer cancel skipP statusOp progressMode runner
        path pos cs acc' hc
      exact ht o (by simpa [walk2Children, hh] using ho)
end

/-- A buffer of nil-error outputs flushes as captured output plus a
success report, one per entry. -/
lemma flushBuffer_success (buffer : List Output)
    (h : ∀ o ∈ buffer, o.error = none) :
    flushBuffer buffer = buffer.map (fun o => Event.success o.path) := by
  induction buffer with
  | nil => rfl
  | cons o os ih =>
    have ho : o.error = none := h o (by simp)
    simp only [flushBuffer, List.map_cons, ho]
    have := ih (fun o' ho' => h o' (List.mem_cons_of_mem _ ho'))
    simpa [flushBuffer] using this

/-- Claim C10: every output the composed walk buffers carries a nil
error (failures go to the error callback, not the buffer), so the flush
loop's error branch is unreachable and flushing emits exactly one
success report per buffered output. -/
theorem C10_buffered_outputs_error_free (tree : FSNode) (rootPath : String)
    (cancel : Nat → Bool) (skipP : String → Bool) (statusOp progressMode : Bool)
    (runner : String → String × Option String) :
    (∀ o ∈ (walkDirectories cancel skipP (gitOp statusOp progressMode runner)
        rootPath tree).buffer, o.error = none) ∧
    flushBuffer (walkDirectories cancel skipP (gitOp statusOp progressMode runner)
        rootPath tree).buffer =
      (walkDirectories cancel skipP (gitOp statusOp progressMode runner)
        rootPath tree).buffer.map (fun o => Event.success o.path) := by
  have hb := walk2Node_buffer cancel skipP statusOp progressMode runner rootPath []
    tree WalkAcc.init (by simp [WalkAcc.init])
  rcases hh : walk2Node cancel skipP (gitOp statusOp progressMode runner)
      rootPath [] tree WalkAcc.init with ⟨acc, ret⟩
  rw [hh] at hb
  dsimp only at hb
  simp only [walkDirectories, hh]
  exact ⟨hb, flushBuffer_success _ hb⟩

/-- The `errCbEvents` distributes over append. -/
lemma errCbEvents_append (a b : List Event) :
    errCbEvents (a ++ b) = errCbEvents a ++ errCbEvents b := by
  simp [errCbEvents, List.filter_append]

mutual
/-- Error-callback events accumulate in lock step with repository
invocations: one failure event per failing runner call, nothing else. -/
lemma walk2Node_events (cancel : Nat → Bool) (skipP : String → Bool)
    (statusOp progressMode : Bool) (runner : String → String × Option String)
    (path : String) (pos : List String) (node : FSNode) (acc : WalkAcc) :
    ∃ newR, (walk2Node cancel skipP (gitOp statusOp progressMode runner)
        path pos node acc).1.invokedRepos = acc.invokedRepos ++ newR ∧
      errCbEvents (walk2Node cancel skipP (gitOp statusOp progressMode runner)
        path pos node acc).1.events =
        errCbEvents acc.events ++ newR.filterMap (failEvent runner) := by
  cases node with
  | file n =>
    refine ⟨[], ?_, ?_⟩ <;>
      by_cases h1 : cancel acc.step = true <;>
      simp [walk2Node, h1, WalkAcc.bumpStep]
  | dir n broken ch =>
    by_cases h1 : cancel acc.step = true
    · exact ⟨[], by simp [walk2Node, h1, WalkAcc.bumpStep],
        by simp [walk2Node, h1, WalkAcc.bumpStep]⟩
    by_cases h2 : broken = true
    · refine ⟨[], by simp [walk2Node, h1, h2, WalkAcc.bumpStep, WalkAcc.walkError], ?_⟩
      simp [walk2Node, h1, h2, WalkAcc.bumpStep, WalkAcc.walkError,
        errCbEvents_append, errCbEvents]
    by_cases h3 : filepathBase path = ".git"
    · exact ⟨[], by simp [walk2Node, h1, h2, h3, WalkAcc.bumpStep, WalkAcc.visitDir,
          WalkAcc.markerVisit],
        by simp [walk2Node, h1, h2, h3, WalkAcc.bumpStep, WalkAcc.visitDir,
          WalkAcc.markerVisit]⟩
    by_cases hg : hasGitMarker ch = true
    · by_cases h4 : skipP path = true
      · refine ⟨[], by simp [walk2Node, h1, h2, h3, h4, hg, WalkAcc.bumpStep,
          WalkAcc.visitDir, WalkAcc.progressUpdate, WalkAcc.skipVisit], ?_⟩
        simp [walk2Node, h1, h2, h3, h4, hg, WalkAcc.bumpStep, WalkAcc.visitDir,
          WalkAcc.progressUpdate, WalkAcc.skipVisit, errCbEvents_append, errCbEvents]
      · refine ⟨[path], ?_, ?_⟩ <;>
        · by_cases h5 : (gitOp statusOp progressMode runner path true).err =
              some GErr.canceled <;>
          simp [walk2Node, h1, h2, h3, h4, h5, hg, WalkAcc.bumpStep,
            WalkAcc.visitDir, WalkAcc.progressUpdate, WalkAcc.repoVisit,
            errCbEvents_append,
            (gitOp_errCb statusOp progressMode runner path).1]
    · by_cases h4 : skipP path = true
      · refine ⟨[], by simp [walk2Node, h1, h2, h3, h4, hg, WalkAcc.bumpStep,
          WalkAcc.visitDir, WalkAcc.progressUpdate, WalkAcc.skipVisit], ?_⟩
        simp [walk2Node, h1, h2, h3, h4, hg, WalkAcc.bumpStep, WalkAcc.visitDir,
          WalkAcc.progressUpdate, WalkAcc.skipVisit, errCbEvents_append, errCbEvents]
      by_cases h5 : (gitOp statusOp progressMode runner path false).err =
          some GErr.canceled
      · refine ⟨[], ?_, ?_⟩ <;>
          simp [walk2Node, h1, h2, h3, h4, h5, hg, WalkAcc.bumpStep,
            WalkAcc.visitDir, WalkAcc.progressUpdate, WalkAcc.nonRepoVisit,
            errCbEvents_append,
            (gitOp_errCb statusOp progressMode runner path).2]
      · obtain ⟨newR, hinv, hev⟩ := walk2Children_events cancel skipP statusOp
          progressMode runner path pos ch
          (((acc.bumpStep.visitDir pos).progressUpdate
            (hasGitMarker ch)).nonRepoVisit path pos
            (gitOp statusOp progressMode runner path false))
        refine ⟨newR, ?_, ?_⟩
        · have : (((acc.bumpStep.visitDir pos).progressUpdate
              (hasGitMarker ch)).nonRepoVisit path pos
              (gitOp statusOp progressMode runner path false)).invokedRepos
              = acc.invokedRepos := by
            simp [hg, WalkAcc.bumpStep, WalkAcc.visitDir, WalkAcc.progressUpdate,
              WalkAcc.nonRepoVisit]
          rw [this] at hinv
          simpa [walk2Node, h1, h2, h3, h4, h5, hg] using hinv
        · have : errCbEvents (((acc.bumpStep.visitDir pos).progressUpdate
              (hasGitMarker ch)).nonRepoVisit path pos
              (gitOp statusOp progressMode runner path false)).events
              = errCbEvents acc.events := by
            simp [hg, WalkAcc.bumpStep, WalkAcc.visitDir, WalkAcc.progressUpdate,
              WalkAcc.nonRepoVisit, errCbEvents_append,
              (gitOp_errCb statusOp progressMode runner path).2]
          rw [this] at hev
          simpa [walk2Node, h1, h2, h3, h4, h5, hg] using hev

/-- The `walk2Node_events` over a children list. -/
lemma walk2Children_events (cancel : Nat → Bool) (skipP : String → Bool)
    (statusOp progressMode : Bool) (runner : String → String × Option String)
    (path : String) (pos : List String) (cs : List FSNode) (acc : WalkAcc) :
    ∃ newR, (walk2Children cancel skipP (gitOp statusOp progressMode runner)
        path pos cs acc).1.invokedRepos = acc.invokedRepos ++ newR ∧
      errCbEvents (walk2Children cancel skipP (gitOp statusOp progressMode runner)
        path pos cs acc).1.events =
        errCbEvents acc.events ++ newR.filterMap (failEvent runner) := by
  cases cs with
  | nil => exact ⟨[], by simp [walk2Children], by simp [walk2Children]⟩
  | cons c cs =>
    obtain ⟨newR1, hinv1, hev1⟩ := walk2Node_events cancel skipP statusOp
      progressMode runner (path ++ "/" ++ c.name) (pos ++ [c.name]) c acc
    rcases hh : walk2Node cancel skipP (gitOp statusOp progressMode runner)
        (path ++ "/" ++ c.name) (pos ++ [c.name]) c acc with ⟨acc', e⟩
    rw [hh] at hinv1 hev1
    dsimp only at hinv1 hev1
    cases e with
    | some e =>
      refine ⟨newR1, ?_, ?_⟩ <;> simp [walk2Children, hh, hinv1, hev1]
    | none =>
      obtain ⟨newR2, hinv2, hev2⟩ := walk2Children_events cancel skipP statusOp
        progressMode runner path pos cs acc'
      refine ⟨newR1 ++ newR2, ?_, ?_⟩
      · simp [walk2Children, hh, hinv2, hinv1]
      · simp [walk2Children, hh, hev2, hev1, hinv1, List.filterMap_append]
end

/-- Success reports contain no error-callback events. -/
lemma errCbEvents_success_map (l : List Output) :
    errCbEvents (l.map (fun o => Event.success o.path)) = [] := by
  induction l with
  | nil => rfl
  | cons o os ih => simp [errCbEvents, List.filter_cons, ih]

/-- Claim C3: per-repository operation failures never change the
traversal's return value — the composed walk still returns nil — and
the error-callback events of the whole run (walk plus flush) are
exactly one event per failing repository invocation, at that
repository's path, with the runner's error. -/
theorem C3_op_failures_absorbed_one_event (tree : FSNode) (rootPath : String)
    (skipP : String → Bool) (statusOp progressMode : Bool)
    (runner : String → String × Option String) :
    (walkDirectories (fun _ => false) skipP (gitOp statusOp progressMode runner)
      rootPath tree).ret = none ∧
    errCbEvents (walkDirectories (fun _ => false) skipP
        (gitOp statusOp progressMode runner) rootPath tree).events =
      (walkDirectories (fun _ => false) skipP (gitOp statusOp progressMode runner)
        rootPath tree).invokedRepos.filterMap (failEvent runner) := by
  have hp := walk2Node_pass1 skipP (gitOp statusOp progressMode runner) rootPath []
    tree WalkAcc.init
    (fun p b => by rw [gitOp_err_none]; simp)
  obtain ⟨newR, hinv, hev⟩ := walk2Node_events (fun _ => false) skipP statusOp
    progressMode runner rootPath [] tree WalkAcc.init
  have hb := walk2Node_buffer (fun _ => false) skipP statusOp progressMode runner
    rootPath [] tree WalkAcc.init (by simp [WalkAcc.init])
  rcases hh : walk2Node (fun _ => false) skipP (gitOp statusOp progressMode runner)
      rootPath [] tree WalkAcc.init with ⟨acc, ret⟩
  rw [hh] at hp hinv hev hb
  dsimp only at hp hinv hev hb
  simp only [walkDirectories, hh]
  refine ⟨hp.1, ?_⟩
  rw [errCbEvents_append, flushBuffer_success _ hb, errCbEvents_success_map,
    List.append_nil, hev, hinv]
  simp [WalkAcc.init, errCbEvents]

/-! ## Repository detection (claim C8) -/

/-- The `dropWhile` skips a fully satisfying block. -/
lemma dropWhile_all_append {α : Type} (P : α → Bool) (A B : List α)
    (hA : ∀ a ∈ A, P a = true) :
    (A ++ B).dropWhile P = B.dropWhile P := by
  induction A with
  | nil => simp
  | cons a A ih =>
    have ha : P a = true := hA a (by simp)
    simp only [List.cons_append, List.dropWhile_cons, ha, if_pos]
    exact ih (fun b hb => hA b (by simp [hb]))

/-- The `takeWhile` keeps a fully satisfying list whole. -/
lemma takeWhile_all {α : Type} (P : α → Bool) (A : List α)
    (hA : ∀ a ∈ A, P a = true) : A.takeWhile P = A := by
  induction A with
  | nil => rfl
  | cons a A ih =>
    have ha : P a = true := hA a (by simp)
    simp only [List.takeWhile_cons, ha, if_pos]
    rw [ih (fun b hb => hA b (by simp [hb]))]

/-- Splitting a separator-free character list yields one piece. -/
lemma splitSlash_no_slash (l : List Char) (h : ∀ c ∈ l, c ≠ '/') :
    splitSlash l = [l] := by
  induction l with
  | nil => rfl
  | cons c r ih =>
    have hc : c ≠ '/' := h c (by simp)
    simp only [splitSlash, ih (fun d hd => h d (by simp [hd])), if_neg hc]
    rfl

/-- Splitting at an explicit separator splits off the first piece. -/
lemma splitSlash_append_slash (A B : List Char) (h : ∀ c ∈ A, c ≠ '/') :
    splitSlash (A ++ '/' :: B) = A :: splitSlash B := by
  induction A with
  | nil => simp [splitSlash]
  | cons c A ih =>
    have hc : c ≠ '/' := h c (by simp)
    have ih' := ih (fun d hd => h d (by simp [hd]))
    simp only [List.cons_append, splitSlash, if_neg hc, List.append_eq, ih']
    rfl

/-- A good name is nonempty, slash-free and not a dot element. -/
lemma goodName_spec' {n : String} (h : goodName n = true) :
    n ≠ "" ∧ n ≠ "." ∧ n ≠ ".." ∧ ∀ c ∈ n.data, c ≠ '/' := by
  simp only [goodName, Bool.decide_and, Bool.and_eq_true, decide_eq_true_eq] at h
  refine ⟨h.1, h.2.1, h.2.2.1, ?_⟩
  intro c hc hc'
  subst hc'
  have h4 := h.2.2.2
  simp only [decide_eq_true_eq] at h4
  exact h4 (List.elem_iff.mpr hc)

/-- Appending one more segment to a nonempty joined path. -/
lemma slashJoin_append_one (segs : List String) (y : String) (hne : segs ≠ []) :
    slashJoin (segs ++ [y]) = slashJoin segs ++ "/" ++ y := by
  induction segs with
  | nil => exact absurd rfl hne
  | cons s ss ih =>
    cases ss with
    | nil => rfl
    | cons s2 ss2 =>
      have hih := ih (by simp)
      show s ++ "/" ++ slashJoin ((s2 :: ss2) ++ [y]) =
        (s ++ "/" ++ slashJoin (s2 :: ss2)) ++ "/" ++ y
      rw [hih]
      simp [String.append_assoc]

/-- A string with a singleton character list is that character's
string. -/
lemma string_of_data {s : String} {l : List Char} (h : s.data = l) :
    s = String.mk l := by
  cases s with
  | mk d => exact congrArg String.mk h

/-- One `Clean` loop iteration over a well-formed path element: the
element is copied (with a separator unless the buffer holds only the
root slash) and the loop continues after it. -/
lemma cleanLoop_segment_step (s : String) (rest out : List Char) (dd f : Nat)
    (hs : goodName s = true) (hrest : rest = [] ∨ rest.headD ' ' = '/') :
    cleanLoop true (f + 1) (s.data ++ rest) out dd =
      cleanLoop true f (rest.dropWhile (fun x => x ≠ '/'))
        ((if out.length = 1 then out else out ++ ['/']) ++ s.data) dd := by
  obtain ⟨hne, hdot1, hdot2, hslash⟩ := goodName_spec' hs
  obtain ⟨c, cr, hcr⟩ : ∃ c cr, s.data = c :: cr := by
    rcases hd : s.data with _ | ⟨c, cr⟩
    · exact absurd ((string_eq_empty_iff s).mpr hd) hne
    · exact ⟨c, cr, rfl⟩
  have hcne : c ≠ '/' := hslash c (by rw [hcr]; simp)
  have hcrslash : ∀ d ∈ cr, d ≠ '/' := fun d hd =>
    hslash d (by rw [hcr]; simp [hd])
  have hcond2 : ¬(c = '.' ∧ (cr ++ rest = [] ∨ (cr ++ rest).headD ' ' = '/')) := by
    rintro ⟨rfl, hdisj⟩
    cases hcr2 : cr with
    | nil =>
      apply hdot1
      rw [hcr2] at hcr
      exact string_of_data hcr
    | cons c2 cr2 =>
      have hc2 : c2 ≠ '/' := hcrslash c2 (by rw [hcr2]; simp)
      rw [hcr2] at hdisj
      rcases hdisj with hd | hd
      · simp at hd
      · simp at hd
        exact hc2 hd
  have hcond3 : ¬(c = '.' ∧ (cr ++ rest).headD ' ' = '.' ∧
      ((cr ++ rest).tail = [] ∨ (cr ++ rest).tail.headD ' ' = '/')) := by
    rintro ⟨rfl, hh2, hdisj⟩
    cases hcr2 : cr with
    | nil =>
      rw [hcr2] at hh2
      simp only [List.nil_append] at hh2
      rcases hrest with rfl | hr
      · simp at hh2
      · rw [hr] at hh2
        simp at hh2
    | cons c2 cr2 =>
      rw [hcr2] at hh2 hdisj
      simp only [List.cons_append, List.headD_cons, List.tail_cons] at hh2 hdisj
      subst hh2
      cases hcr3 : cr2 with
      | nil =>
        apply hdot2
        rw [hcr2, hcr3] at hcr
        exact string_of_data hcr
      | cons c3 cr3 =>
        have hc3 : c3 ≠ '/' := hcrslash c3 (by rw [hcr2, hcr3]; simp)
        rw [hcr3] at hdisj
        rcases hdisj with hd | hd
        · simp at hd
        · simp at hd
          exact hc3 hd
  have hall : ∀ a ∈ c :: cr, (fun x => decide (x ≠ '/')) a = true := by
    intro a ha
    simp only [decide_eq_true_eq]
    rcases List.mem_cons.mp ha with rfl | ha
    · exact hcne
    · exact hcrslash a ha
  have htake : (c :: (cr ++ rest)).takeWhile (fun x => decide (x ≠ '/')) =
      c :: cr := by
    have hsplit : c :: (cr ++ rest) = (c :: cr) ++ rest := by simp
    rw [hsplit]
    rcases rest with _ | ⟨r0, rrest⟩
    · rw [List.append_nil]
      exact takeWhile_all _ _ hall
    · have hr0 : r0 = '/' := by
        rcases hrest with h | h
        · simp at h
        · simpa using h
      subst hr0
      exact takeWhile_all_append _ _ _ _ hall (by simp)
  have hdrop : (c :: (cr ++ rest)).dropWhile (fun x => decide (x ≠ '/')) =
      rest.dropWhile (fun x => decide (x ≠ '/')) := by
    have hsplit : c :: (cr ++ rest) = (c :: cr) ++ rest := by simp
    rw [hsplit]
    exact dropWhile_all_append _ _ _ hall
  rw [hcr, List.cons_append]
  show cleanLoop true (f + 1) (c :: (cr ++ rest)) out dd = _
  rw [cleanLoop]
  rw [if_neg hcne, if_neg hcond2, if_neg hcond3]
  simp only [htake, hdrop]
  have hout2 : (if (True ∧ out.length ≠ 1) ∨ (¬True ∧ out.length ≠ 0) then
      out ++ ['/'] else out) = (if out.length = 1 then out else out ++ ['/']) := by
    by_cases h : out.length = 1 <;> simp [h]
  rw [hout2]

/-- Character view of a joined path with at least two segments. -/
lemma slashJoin_data_cons (s s2 : String) (ss : List String) :
    (slashJoin (s :: s2 :: ss)).data =
      s.data ++ '/' :: (slashJoin (s2 :: ss)).data := by
  show (s ++ "/" ++ slashJoin (s2 :: ss)).data = _
  simp [String.data_append]

/-- The separator-first form of `cleanAppend`. -/
lemma cleanAppend_false_cons (t : String) (ts : List String) :
    cleanAppend false (t :: ts) = '/' :: cleanAppend true (t :: ts) := by
  simp [cleanAppend]

/-- From the root slash, the `Clean` loop reproduces the joined
segments verbatim. -/
lemma cleanAppend_true_data (segs : List String) :
    cleanAppend true segs = (slashJoin segs).data := by
  induction segs with
  | nil => rfl
  | cons s ss ih =>
    cases ss with
    | nil => simp [cleanAppend, slashJoin]
    | cons s2 ss2 =>
      rw [slashJoin_data_cons]
      show (if true = true then ([] : List Char) else ['/']) ++ s.data ++
        cleanAppend false (s2 :: ss2) = _
      rw [cleanAppend_false_cons, ih]
      simp

/-- A well-formed name has at least one character. -/
lemma goodName_data_pos {s : String} (h : goodName s = true) :
    1 ≤ s.data.length := by
  rcases hd : s.data with _ | ⟨c, cr⟩
  · exact absurd ((string_eq_empty_iff s).mpr hd) (goodName_spec' h).1
  · simp

/-- The `Clean` main loop maps a rooted, well-formed segment path to
the buffer followed by the joined segments. -/
lemma cleanLoop_goodSegs (segs : List String)
    (h : ∀ s ∈ segs, goodName s = true) :
    ∀ out dd fuel, (slashJoin segs).data.length ≤ fuel → 1 ≤ out.length →
    cleanLoop true fuel ((slashJoin segs).data) out dd
      = out ++ cleanAppend (out.length == 1) segs := by
  induction segs with
  | nil =>
    intro out dd fuel _ _
    show cleanLoop true fuel [] out dd = out ++ cleanAppend (out.length == 1) []
    cases fuel <;> simp [cleanLoop, cleanAppend]
  | cons s ss ih =>
    intro out dd fuel hfuel hout
    have hgood := h s (by simp)
    have hlen := goodName_data_pos hgood
    cases ss with
    | nil =>
      have hdat : (slashJoin [s]).data = s.data := rfl
      rw [hdat] at hfuel ⊢
      obtain ⟨f, rfl⟩ : ∃ f, fuel = f + 1 := ⟨fuel - 1, by omega⟩
      have hstep := cleanLoop_segment_step s [] out dd f hgood (Or.inl rfl)
      rw [List.append_nil] at hstep
      rw [hstep]
      have hend : ∀ g o d, cleanLoop true g ([].dropWhile (fun x => x ≠ '/')) o d = o := by
        intro g o d
        cases g <;> simp [cleanLoop]
      rw [hend]
      by_cases h1 : out.length = 1 <;> simp [h1, cleanAppend]
    | cons s2 ss2 =>
      rw [slashJoin_data_cons] at hfuel ⊢
      have hlen2 : s.data.length + 1 + (slashJoin (s2 :: ss2)).data.length ≤ fuel := by
        rw [List.length_append, List.length_cons] at hfuel
        omega
      obtain ⟨f, rfl⟩ : ∃ f, fuel = f + 1 := ⟨fuel - 1, by omega⟩
      have hstep := cleanLoop_segment_step s ('/' :: (slashJoin (s2 :: ss2)).data)
        out dd f hgood (Or.inr (by simp))
      rw [hstep]
      have hdrop : ('/' :: (slashJoin (s2 :: ss2)).data).dropWhile
          (fun x => decide (x ≠ '/')) = '/' :: (slashJoin (s2 :: ss2)).data := by
        simp [List.dropWhile_cons]
      rw [hdrop]
      obtain ⟨f2, rfl⟩ : ∃ f2, f = f2 + 1 := ⟨f - 1, by omega⟩
      rw [cleanLoop]
      rw [if_pos rfl]
      have hif : 1 ≤ (if out.length = 1 then out else out ++ ['/']).length := by
        by_cases h1 : out.length = 1 <;> simp [h1, List.length_append]
      have hout3 : 1 ≤ ((if out.length = 1 then out else out ++ ['/']) ++ s.data).length := by
        rw [List.length_append]
        omega
      have hih := ih (fun t ht => h t (by simp [ht]))
        ((if out.length = 1 then out else out ++ ['/']) ++ s.data) dd f2
        (by omega) hout3
      rw [hih]
      have hne3 : (((if out.length = 1 then out else out ++ ['/']) ++ s.data).length == 1)
          = false := by
        rw [beq_eq_false_iff_ne, List.length_append]
        omega
      rw [hne3]
      by_cases h1 : out.length = 1 <;> simp [h1, cleanAppend]

/-- The `filepath.Clean` is the identity on well-formed absolute paths. -/
lemma filepathClean_abs (segs : List String)
    (h : ∀ s ∈ segs, goodName s = true) :
    filepathClean ("/" ++ slashJoin segs) = "/" ++ slashJoin segs := by
  have hdata : ("/" ++ slashJoin segs).data = '/' :: (slashJoin segs).data := by
    simp [String.data_append]
  have hne : ("/" ++ slashJoin segs) ≠ "" := by
    intro heq
    have := (string_eq_empty_iff _).mp heq
    rw [hdata] at this
    cases this
  unfold filepathClean
  rw [if_neg hne]
  simp only [hdata, List.headD_cons, List.tail_cons, List.length_cons]
  simp only [if_true]
  rw [cleanLoop_goodSegs segs h ['/'] 1 ((slashJoin segs).data.length + 1)
    (by omega) (by simp)]
  have : (['/'].length == 1) = true := by decide
  rw [this]
  have hres : ('/' :: cleanAppend true segs : List Char) ≠ [] := by simp
  rw [cleanAppend_true_data]
  simp only [List.singleton_append]
  rw [if_neg (by rw [cleanAppend_true_data] at hres; exact hres)]
  exact (string_of_data hdata).symm

/-- Splitting the joined form of nonempty well-formed segments returns
the segments. -/
lemma splitSlash_join (segs : List String) (hne : segs ≠ [])
    (h : ∀ s ∈ segs, goodName s = true) :
    splitSlash ((slashJoin segs).data) = segs.map String.data := by
  induction segs with
  | nil => exact absurd rfl hne
  | cons s ss ih =>
    have hs := goodName_spec' (h s (by simp))
    cases ss with
    | nil =>
      show splitSlash s.data = [s.data]
      exact splitSlash_no_slash s.data hs.2.2.2
    | cons s2 ss2 =>
      rw [slashJoin_data_cons,
        splitSlash_append_slash s.data _ hs.2.2.2,
        ih (by simp) (fun t ht => h t (by simp [ht]))]
      rfl

/-- The `String.mk` un-does `String.data` on a mapped list. -/
lemma map_mk_map_data (l : List String) :
    (l.map String.data).map String.mk = l := by
  rw [List.map_map]
  have : (String.mk ∘ String.data) = id := funext (fun s => by cases s; rfl)
  rw [this, List.map_id]

/-- The segments `os.Stat` resolves for a well-formed absolute path are
exactly its path segments. -/
lemma absSegs_abs (segs : List String) (h : ∀ s ∈ segs, goodName s = true) :
    absSegs ("/" ++ slashJoin segs) = segs := by
  cases segs with
  | nil => decide
  | cons s ss =>
    unfold absSegs
    rw [filepathClean_abs _ h]
    have hdata : ("/" ++ slashJoin (s :: ss)).data =
        '/' :: (slashJoin (s :: ss)).data := by
      simp [String.data_append]
    rw [hdata]
    have hsplit : splitSlash ('/' :: (slashJoin (s :: ss)).data) =
        [] :: splitSlash ((slashJoin (s :: ss)).data) := by
      simp [splitSlash]
    rw [hsplit, splitSlash_join (s :: ss) (by simp) h]
    rw [List.map_cons, map_mk_map_data]
    rw [List.filter_cons]
    have : (decide ((String.mk [] : String) ≠ "")) = false := by decide
    simp only [this, Bool.false_eq_true, if_false, ite_false]
    rw [List.filter_eq_self.mpr]
    intro a ha
    simpa using (goodName_spec' (h a ha)).1

/-- Resolving one extra trailing segment is a child lookup on the
resolved node. -/
lemma resolveNode_append_one (t : FSNode) (xs : List String) (y : String) :
    resolveNode t (xs ++ [y]) =
      (resolveNode t xs).bind (fun n => lookupChild n y) := by
  induction xs generalizing t with
  | nil =>
    cases t with
    | file n => simp [resolveNode, lookupChild]
    | dir n b ch =>
      show resolveNode (.dir n b ch) [y] = _
      simp only [resolveNode, lookupChild, Option.some_bind]
      cases hf : ch.find? (fun c => c.name = y) <;> simp [hf, resolveNode]
  | cons x xs ih =>
    cases t with
    | file n => simp [resolveNode]
    | dir n b ch =>
      show resolveNode (.dir n b ch) (x :: (xs ++ [y])) = _
      simp only [resolveNode]
      cases hf : ch.find? (fun c => c.name = x) with
      | none => simp
      | some c => simpa using ih c

/-- Claim C8, amended: `IsRepository` on a well-formed absolute path is
true iff an entry named `.git` — directory or file, since `os.Stat`
succeeds for either — exists directly under the path's node, and a path
that does not resolve at all yields false (no error: the function is
total). -/
theorem C8_isRepository_marker_entry (fs : FSNode) (segs : List String)
    (h : ∀ s ∈ segs, goodName s = true) :
    (IsRepository fs ("/" ++ slashJoin segs) = true ↔
      ∃ node, resolveNode fs segs = some node ∧ nodeHasMarker node = true) ∧
    (resolveNode fs segs = none →
      IsRepository fs ("/" ++ slashJoin segs) = false) := by
  have habs : absSegs (filepathJoin ("/" ++ slashJoin segs) ".git") =
      segs ++ [".git"] := by
    cases segs with
    | nil => decide
    | cons s ss =>
      have hne : ("/" ++ slashJoin (s :: ss)) ≠ "" := by
        intro heq
        have := (string_eq_empty_iff _).mp heq
        rw [show ("/" ++ slashJoin (s :: ss)).data =
          '/' :: (slashJoin (s :: ss)).data from by simp [String.data_append]] at this
        cases this
      have hjoin : filepathJoin ("/" ++ slashJoin (s :: ss)) ".git" =
          filepathClean (("/" ++ slashJoin (s :: ss)) ++ "/" ++ ".git") := by
        unfold filepathJoin
        rw [if_neg (by simp [hne]), if_neg hne, if_neg (by decide)]
      have hpath : ("/" ++ slashJoin (s :: ss)) ++ "/" ++ ".git" =
          "/" ++ slashJoin ((s :: ss) ++ [".git"]) := by
        rw [slashJoin_append_one (s :: ss) ".git" (by simp)]
        rw [String.append_assoc, String.append_assoc, String.append_assoc]
      have hgood : ∀ t ∈ (s :: ss) ++ [".git"], goodName t = true := by
        intro t ht
        rcases List.mem_append.mp ht with ht | ht
        · exact h t ht
        · simp only [List.mem_singleton] at ht
          subst ht
          decide
      rw [hjoin, hpath, filepathClean_abs _ hgood, absSegs_abs _ hgood]
  have hrepo : IsRepository fs ("/" ++ slashJoin segs) =
      ((resolveNode fs segs).bind (fun n => lookupChild n ".git")).isSome := by
    unfold IsRepository statOk
    rw [habs, resolveNode_append_one]
  constructor
  · rw [hrepo]
    cases hres : resolveNode fs segs with
    | none => simp
    | some node =>
      simp only [Option.some_bind, Option.some.injEq]
      cases node with
      | file n => simp [lookupChild, nodeHasMarker]
      | dir n b ch =>
        simp only [lookupChild, nodeHasMarker]
        rw [List.find?_isSome]
        constructor
        · rintro ⟨c, hc, hcy⟩
          refine ⟨FSNode.dir n b ch, rfl, ?_⟩
          simp only [hasGitMarker, List.any_eq_true]
          exact ⟨c, hc, by simpa using hcy⟩
        · rintro ⟨node, hnode, hmark⟩
          subst hnode
          have hm : hasGitMarker ch = true := hmark
          simp only [hasGitMarker, List.any_eq_true] at hm
          obtain ⟨c, hc, hcy⟩ := hm
          exact ⟨c, hc, by simpa using hcy⟩
  · intro hres
    rw [hrepo, hres]
    rfl

/-- Counterexample to C8 as stated: a plain file named `.git` also makes
`IsRepository` true, because `os.Stat` does not distinguish files from
directories — yet no marker subdirectory exists. -/
theorem C8_counterexample :
    IsRepository (.dir "r" false [.file ".git"]) "/" = true ∧
    hasGitDirMarker [.file ".git"] = false := by
  constructor
  · decide
  · decide

/-- Witness for the amended C8: a repository directory with a `.git`
directory entry, and a nonexistent path. -/
theorem C8_witness :
    (IsRepository (.dir "r" false [.dir ".git" false []]) ("/" ++ slashJoin []) = true ↔
      ∃ node, resolveNode (.dir "r" false [.dir ".git" false []]) [] = some node ∧
        nodeHasMarker node = true) ∧
    (resolveNode (.dir "r" false [.dir ".git" false []]) ["x"] = none →
      IsRepository (.dir "r" false [.dir ".git" false []]) ("/" ++ slashJoin ["x"]) = false) :=
  ⟨(C8_isRepository_marker_entry (.dir "r" false [.dir ".git" false []]) []
      (by simp)).1,
   (C8_isRepository_marker_entry (.dir "r" false [.dir ".git" false []]) ["x"]
      (by decide)).2⟩

end Got
